import Mathlib

/-!
Verification of the `flatdir` directory flattener (`src/flatdir.py`).

The filesystem is modelled as an association list from absolute paths
(lists of name components) to entries (plain files with byte contents, or
directories).  The recursive routine `flatten_dir` is translated directly
from the Python source: it threads the filesystem state explicitly and
additionally returns the aggregate counters `(n_files, n_bytes)` together
with a trace of the observable events (file visits, verbose prints, and
copies).
-/

set_option linter.unusedVariables false

namespace Flatdir

abbrev FName := String

/-- An absolute path, as the list of its name components. -/
abbrev FPath := List FName

/-- A filesystem entry: a plain file with its byte contents, or a directory. -/
inductive Entry where
  | file (content : List Nat)
  | dir
deriving DecidableEq

/-- A filesystem: a finite association list from paths to entries. -/
abbrev FS := List (FPath × Entry)

/-- Look up the entry stored at path `p` (first match wins). -/
def lookupFS : FS → FPath → Option Entry
  | [], _ => none
  | (q, e) :: rest, p => if q = p then some e else lookupFS rest p

/-- Model of `Path.exists()`. -/
def existsFS (fs : FS) (p : FPath) : Bool := (lookupFS fs p).isSome

/-- Model of `Path.is_dir()`. -/
def isDirFS (fs : FS) (p : FPath) : Bool :=
  match lookupFS fs p with
  | some Entry.dir => true
  | _ => false

/-- Model of `Path.is_file()`. -/
def isFileFS (fs : FS) (p : FPath) : Bool :=
  match lookupFS fs p with
  | some (Entry.file _) => true
  | _ => false

/-- The byte contents of a file (empty for non-files). -/
def contentOf (fs : FS) (p : FPath) : List Nat :=
  match lookupFS fs p with
  | some (Entry.file c) => c
  | _ => []

/-- Model of `Path.stat().st_size`. -/
def statSize (fs : FS) (p : FPath) : Nat := (contentOf fs p).length

/-- Write a file at path `p` with contents `c`: the model of `shutil.copy`'s
effect on the destination (overwrite in place, or create). -/
def setFile : FS → FPath → List Nat → FS
  | [], p, c => [(p, Entry.file c)]
  | (q, e) :: rest, p, c =>
    if q = p then (q, Entry.file c) :: rest else (q, e) :: setFile rest p c

/-- `p` is a direct child of directory `d`. -/
def childOf (d p : FPath) : Bool := p.dropLast == d && !p.isEmpty

/-- Model of `Path.iterdir()`: the direct children of `d`, in filesystem
order. -/
def iterdir (fs : FS) (d : FPath) : List FPath :=
  (fs.filter (fun en => childOf d en.1)).map (fun en => en.1)

/-- Model of `Path.name`: the final path component. -/
def lastName (p : FPath) : FName := p.getLastD ""

/-- Observable events of a traversal: a file entry being visited, a verbose
print line, and a completed copy (with the copied contents and the size
observed by `stat` right after the copy). -/
inductive Event where
  | visited (src : FPath)
  | printed (dst : FPath)
  | copied (src dst : FPath) (content : List Nat) (size : Nat)
deriving DecidableEq

/-- The result of a traversal: the final filesystem, the two counters
returned by `flatten_dir`, and the event trace. -/
structure Res where
  fs : FS
  nFiles : Nat
  nBytes : Nat
  trace : List Event
deriving DecidableEq

mutual

/-- Direct translation of `flatten_dir` from `src/flatdir.py`.  The Python
function mutates the filesystem and returns `(n_files, n_bytes)`; here the
filesystem is threaded explicitly and the side effects are recorded in the
trace. -/
def flatten_dir (fs : FS) (indir outdir : FPath) (recursions_left : Int)
    (verbose overwrite : Bool) : Res :=
  if h : recursions_left < 0 ∨ indir = outdir then ⟨fs, 0, 0, []⟩
  else
    flattenLoop fs (iterdir fs indir) outdir recursions_left
      (Int.not_lt.mp (fun hlt => h (Or.inl hlt))) verbose overwrite
termination_by (2 * (recursions_left + 1).toNat + 1, 0)

/-- The `for path in indir.iterdir()` loop body of `flatten_dir`. -/
def flattenLoop (fs : FS) (paths : List FPath) (outdir : FPath) (r : Int)
    (hr : 0 ≤ r) (verbose overwrite : Bool) : Res :=
  match paths with
  | [] => ⟨fs, 0, 0, []⟩
  | path :: rest =>
    if isDirFS fs path then
      let sub := flatten_dir fs path outdir (r - 1) verbose overwrite
      let res := flattenLoop sub.fs rest outdir r hr verbose overwrite
      ⟨res.fs, sub.nFiles + res.nFiles, sub.nBytes + res.nBytes,
        sub.trace ++ res.trace⟩
    else if isFileFS fs path then
      let outfile := outdir ++ [lastName path]
      if existsFS fs outfile && !overwrite then
        let res := flattenLoop fs rest outdir r hr verbose overwrite
        ⟨res.fs, res.nFiles, res.nBytes, Event.visited path :: res.trace⟩
      else
        let c := contentOf fs path
        let fs1 := setFile fs outfile c
        let size := statSize fs1 path
        let res := flattenLoop fs1 rest outdir r hr verbose overwrite
        ⟨res.fs, 1 + res.nFiles, size + res.nBytes,
          Event.visited path ::
            ((if verbose then [Event.printed outfile] else []) ++
              (Event.copied path outfile c size :: res.trace))⟩
    else
      flattenLoop fs rest outdir r hr verbose overwrite
termination_by (2 * (r + 1).toNat, paths.length)

end

/-! Specification-side definitions.  `reachDirs`/`reachFiles` compute the
directories and plain files reachable from a directory within a recursion
budget, mirroring the traversal structure of `flatten_dir` but reading a
fixed filesystem and ignoring the destination directory entirely. -/

mutual

/-- All directories scanned when walking `d` with budget `r` (including `d`
itself when the budget is nonnegative). -/
def reachDirs (fs : FS) (d : FPath) (r : Int) : List FPath :=
  if h : r < 0 then []
  else d :: reachDirsLoop fs (iterdir fs d) r (Int.not_lt.mp h)
termination_by (2 * (r + 1).toNat + 1, 0)

/-- Loop form of `reachDirs` over a list of directory entries. -/
def reachDirsLoop (fs : FS) (paths : List FPath) (r : Int) (hr : 0 ≤ r) :
    List FPath :=
  match paths with
  | [] => []
  | p :: rest =>
    (if isDirFS fs p then reachDirs fs p (r - 1) else []) ++
      reachDirsLoop fs rest r hr
termination_by (2 * (r + 1).toNat, paths.length)

end

mutual

/-- All plain files reachable from `d` within recursion budget `r`. -/
def reachFiles (fs : FS) (d : FPath) (r : Int) : List FPath :=
  if h : r < 0 then []
  else reachFilesLoop fs (iterdir fs d) r (Int.not_lt.mp h)
termination_by (2 * (r + 1).toNat + 1, 0)

/-- Loop form of `reachFiles` over a list of directory entries. -/
def reachFilesLoop (fs : FS) (paths : List FPath) (r : Int) (hr : 0 ≤ r) :
    List FPath :=
  match paths with
  | [] => []
  | p :: rest =>
    (if isDirFS fs p then reachFiles fs p (r - 1)
     else if isFileFS fs p then [p] else []) ++
      reachFilesLoop fs rest r hr
termination_by (2 * (r + 1).toNat, paths.length)

end

/-- The plain files at subdirectory nesting depth exactly `k` below `d`. -/
def filesAtDepth (fs : FS) (d : FPath) : Nat → List FPath
  | 0 => (iterdir fs d).filter (fun p => isFileFS fs p)
  | k + 1 =>
    ((iterdir fs d).filter (fun p => isDirFS fs p)).flatMap
      (fun c => filesAtDepth fs c k)

/-- Pure model of the skip/overwrite policy: given the files visited in
order and the set `E` of names already present in the destination, return
the files actually copied. -/
def specCopied (o : Bool) : List FPath → (FName → Bool) → List FPath
  | [], _ => []
  | p :: rest, E =>
    if E (lastName p) && !o then specCopied o rest E
    else p :: specCopied o rest (fun m => m == lastName p || E m)

/-- Apply a sequence of file writes in order. -/
def applyCopies (fs : FS) : List (FPath × List Nat) → FS
  | [] => fs
  | (p, c) :: rest => applyCopies (setFile fs p c) rest

/-- The last write to path `p` in a sequence of file writes, if any. -/
def lastWriteOf : List (FPath × List Nat) → FPath → Option (List Nat)
  | [], _ => none
  | (q, c) :: rest, p =>
    match lastWriteOf rest p with
    | some c' => some c'
    | none => if q = p then some c else none

/-- The sources visited by a trace, in order. -/
def visitedOf : List Event → List FPath
  | [] => []
  | Event.visited p :: t => p :: visitedOf t
  | _ :: t => visitedOf t

/-- The destinations printed by a trace (verbose output), in order. -/
def printedOf : List Event → List FPath
  | [] => []
  | Event.printed p :: t => p :: printedOf t
  | _ :: t => printedOf t

/-- The copies performed by a trace, in order, as
`(src, dst, content, size)` tuples. -/
def copiedOf : List Event → List (FPath × FPath × List Nat × Nat)
  | [] => []
  | Event.copied s d c n :: t => (s, d, c, n) :: copiedOf t
  | _ :: t => copiedOf t

/-- The file writes performed by a trace, in order. -/
def copyOps (t : List Event) : List (FPath × List Nat) :=
  (copiedOf t).map (fun x => (x.2.1, x.2.2.1))

/-! Basic lemmas about the filesystem primitives. -/

theorem lookupFS_setFile (fs : FS) (p : FPath) (c : List Nat) (x : FPath) :
    lookupFS (setFile fs p c) x =
      if p = x then some (Entry.file c) else lookupFS fs x := by
  induction fs with
  | nil => simp [setFile, lookupFS]
  | cons en rest ih =>
    obtain ⟨q, e⟩ := en
    by_cases hqp : q = p
    · subst hqp
      by_cases hqx : q = x <;> simp [setFile, lookupFS, hqx]
    · by_cases hqx : q = x
      · have hpx : p ≠ x := fun h => hqp (hqx.trans h.symm)
        have hxp : x ≠ p := fun h => hqp (hqx.trans h)
        simp [setFile, lookupFS, hqp, hqx, hpx, hxp]
      · simp [setFile, lookupFS, hqp, hqx, ih]

theorem existsFS_setFile (fs : FS) (p : FPath) (c : List Nat) (x : FPath) :
    existsFS (setFile fs p c) x = if p = x then true else existsFS fs x := by
  simp only [existsFS, lookupFS_setFile]
  split <;> simp

theorem iterdir_cons (q : FPath) (e : Entry) (rest : FS) (d : FPath) :
    iterdir ((q, e) :: rest) d =
      if childOf d q then q :: iterdir rest d else iterdir rest d := by
  simp only [iterdir, List.filter_cons]
  split <;> simp

theorem childOf_false_of_dropLast_ne {d p : FPath} (h : p.dropLast ≠ d) :
    childOf d p = false := by
  simp [childOf, h]

theorem iterdir_setFile (fs : FS) (p : FPath) (c : List Nat) (d : FPath)
    (h : p.dropLast ≠ d) : iterdir (setFile fs p c) d = iterdir fs d := by
  induction fs with
  | nil =>
    simp [setFile, iterdir, List.filter_cons, childOf_false_of_dropLast_ne h]
  | cons en rest ih =>
    obtain ⟨q, e⟩ := en
    by_cases hqp : q = p
    · subst hqp
      simp [setFile, iterdir_cons]
    · simp [setFile, hqp, iterdir_cons, ih]

theorem mem_iterdir {fs : FS} {d p : FPath} (h : p ∈ iterdir fs d) :
    p.dropLast = d ∧ p ≠ [] := by
  simp only [iterdir, List.mem_map, List.mem_filter] at h
  obtain ⟨en, ⟨_, hc⟩, rfl⟩ := h
  simp only [childOf, Bool.and_eq_true, beq_iff_eq] at hc
  refine ⟨hc.1, ?_⟩
  intro hnil
  rw [hnil] at hc
  simp at hc

theorem dropLast_concat_self (d : FPath) (n : FName) :
    (d ++ [n]).dropLast = d := by
  simp

theorem eq_parent_concat_lastName {fs : FS} {d p : FPath}
    (h : p ∈ iterdir fs d) : p = d ++ [lastName p] := by
  obtain ⟨h1, h2⟩ := mem_iterdir h
  have := List.dropLast_append_getLast h2
  rw [h1] at this
  have hl : lastName p = p.getLast h2 := by
    simp [lastName, List.getLastD_eq_getLast?, List.getLast?_eq_getLast p h2]
  rw [hl]
  exact this.symm

/-! Lemmas about `applyCopies` and `lastWriteOf`. -/

theorem applyCopies_append (fs : FS) (ops1 ops2 : List (FPath × List Nat)) :
    applyCopies fs (ops1 ++ ops2) = applyCopies (applyCopies fs ops1) ops2 := by
  induction ops1 generalizing fs with
  | nil => simp [applyCopies]
  | cons op t ih =>
    obtain ⟨p, c⟩ := op
    simp [applyCopies, ih]

theorem lookupFS_applyCopies (ops : List (FPath × List Nat)) (fs : FS)
    (x : FPath) :
    lookupFS (applyCopies fs ops) x =
      match lastWriteOf ops x with
      | some c => some (Entry.file c)
      | none => lookupFS fs x := by
  induction ops generalizing fs with
  | nil => simp [applyCopies, lastWriteOf]
  | cons op t ih =>
    obtain ⟨p, c⟩ := op
    simp only [applyCopies, lastWriteOf, ih, lookupFS_setFile]
    cases h : lastWriteOf t x with
    | some c' => simp
    | none => by_cases hpx : p = x <;> simp [hpx]

theorem lastWriteOf_eq_none_iff (ops : List (FPath × List Nat)) (x : FPath) :
    lastWriteOf ops x = none ↔ x ∉ ops.map Prod.fst := by
  induction ops with
  | nil => simp [lastWriteOf]
  | cons op t ih =>
    obtain ⟨p, c⟩ := op
    simp only [lastWriteOf, List.map_cons, List.mem_cons]
    cases h : lastWriteOf t x with
    | some c' =>
      have hx : x ∈ t.map Prod.fst := by
        by_contra hx
        rw [ih.mpr hx] at h
        exact absurd h (by simp)
      simp [hx]
    | none =>
      have hx : x ∉ t.map Prod.fst := ih.mp h
      by_cases hpx : p = x
      · subst hpx
        simp
      · simp [hpx, hx, Ne.symm hpx]

theorem lookupFS_applyCopies_of_not_mem {ops : List (FPath × List Nat)}
    {x : FPath} (h : x ∉ ops.map Prod.fst) (fs : FS) :
    lookupFS (applyCopies fs ops) x = lookupFS fs x := by
  rw [lookupFS_applyCopies, (lastWriteOf_eq_none_iff ops x).mpr h]

theorem iterdir_applyCopies {outdir : FPath} (ops : List (FPath × List Nat))
    (hops : ∀ op ∈ ops, (op.1).dropLast = outdir) (fs : FS) (d : FPath)
    (hd : d ≠ outdir) : iterdir (applyCopies fs ops) d = iterdir fs d := by
  induction ops generalizing fs with
  | nil => simp [applyCopies]
  | cons op t ih =>
    obtain ⟨p, c⟩ := op
    simp only [applyCopies]
    rw [ih (fun o ho => hops o (List.mem_cons_of_mem _ ho)),
      iterdir_setFile]
    rw [hops (p, c) (List.mem_cons_self _ _)]
    exact hd.symm

theorem existsFS_applyCopies_isSome (ops : List (FPath × List Nat)) (fs : FS)
    (x : FPath) (h : existsFS fs x = true) :
    existsFS (applyCopies fs ops) x = true := by
  simp only [existsFS, lookupFS_applyCopies]
  cases lastWriteOf ops x <;> simp_all [existsFS]

/-! Lemmas about the trace extractors. -/

theorem visitedOf_append (a b : List Event) :
    visitedOf (a ++ b) = visitedOf a ++ visitedOf b := by
  induction a with
  | nil => simp [visitedOf]
  | cons e t ih => cases e <;> simp [visitedOf, ih]

theorem printedOf_append (a b : List Event) :
    printedOf (a ++ b) = printedOf a ++ printedOf b := by
  induction a with
  | nil => simp [printedOf]
  | cons e t ih => cases e <;> simp [printedOf, ih]

theorem copiedOf_append (a b : List Event) :
    copiedOf (a ++ b) = copiedOf a ++ copiedOf b := by
  induction a with
  | nil => simp [copiedOf]
  | cons e t ih => cases e <;> simp [copiedOf, ih]

theorem copyOps_append (a b : List Event) :
    copyOps (a ++ b) = copyOps a ++ copyOps b := by
  simp [copyOps, copiedOf_append]

@[simp] theorem visitedOf_nil : visitedOf [] = [] := rfl

@[simp] theorem visitedOf_visited_cons (p : FPath) (t : List Event) :
    visitedOf (Event.visited p :: t) = p :: visitedOf t := rfl

@[simp] theorem visitedOf_printed_cons (p : FPath) (t : List Event) :
    visitedOf (Event.printed p :: t) = visitedOf t := rfl

@[simp] theorem visitedOf_copied_cons (s d : FPath) (c : List Nat) (n : Nat)
    (t : List Event) :
    visitedOf (Event.copied s d c n :: t) = visitedOf t := rfl

@[simp] theorem printedOf_nil : printedOf [] = [] := rfl

@[simp] theorem printedOf_visited_cons (p : FPath) (t : List Event) :
    printedOf (Event.visited p :: t) = printedOf t := rfl

@[simp] theorem printedOf_printed_cons (p : FPath) (t : List Event) :
    printedOf (Event.printed p :: t) = p :: printedOf t := rfl

@[simp] theorem printedOf_copied_cons (s d : FPath) (c : List Nat) (n : Nat)
    (t : List Event) :
    printedOf (Event.copied s d c n :: t) = printedOf t := rfl

@[simp] theorem copiedOf_nil : copiedOf [] = [] := rfl

@[simp] theorem copiedOf_visited_cons (p : FPath) (t : List Event) :
    copiedOf (Event.visited p :: t) = copiedOf t := rfl

@[simp] theorem copiedOf_printed_cons (p : FPath) (t : List Event) :
    copiedOf (Event.printed p :: t) = copiedOf t := rfl

@[simp] theorem copiedOf_copied_cons (s d : FPath) (c : List Nat) (n : Nat)
    (t : List Event) :
    copiedOf (Event.copied s d c n :: t) = (s, d, c, n) :: copiedOf t := rfl

/-! Pointwise characterizations of the predicates after a write. -/

theorem contentOf_setFile (fs : FS) (p : FPath) (c : List Nat) (x : FPath) :
    contentOf (setFile fs p c) x = if p = x then c else contentOf fs x := by
  by_cases h : p = x <;> simp [contentOf, lookupFS_setFile, h]

theorem statSize_setFile_ne {fs : FS} {p x : FPath} {c : List Nat}
    (h : p ≠ x) : statSize (setFile fs p c) x = statSize fs x := by
  simp [statSize, contentOf_setFile, h]

theorem isDirFS_congr {fs fsB : FS} {p : FPath}
    (h : lookupFS fsB p = lookupFS fs p) : isDirFS fsB p = isDirFS fs p := by
  simp [isDirFS, h]

theorem isFileFS_congr {fs fsB : FS} {p : FPath}
    (h : lookupFS fsB p = lookupFS fs p) : isFileFS fsB p = isFileFS fs p := by
  simp [isFileFS, h]

theorem contentOf_congr {fs fsB : FS} {p : FPath}
    (h : lookupFS fsB p = lookupFS fs p) : contentOf fsB p = contentOf fs p := by
  simp [contentOf, h]

theorem statSize_congr {fs fsB : FS} {p : FPath}
    (h : lookupFS fsB p = lookupFS fs p) : statSize fsB p = statSize fs p := by
  simp [statSize, contentOf_congr h]

/-! Sequencing of traversal results, and unfolding equations for the
traversal and reachability functions. -/

/-- Sequencing of two traversal results, as performed by the loop:
counts and events accumulate left to right, the filesystem is threaded. -/
def seqRes (a b : Res) : Res :=
  ⟨b.fs, a.nFiles + b.nFiles, a.nBytes + b.nBytes, a.trace ++ b.trace⟩

@[simp] theorem seqRes_fs (a b : Res) : (seqRes a b).fs = b.fs := rfl

@[simp] theorem seqRes_nFiles (a b : Res) :
    (seqRes a b).nFiles = a.nFiles + b.nFiles := rfl

@[simp] theorem seqRes_nBytes (a b : Res) :
    (seqRes a b).nBytes = a.nBytes + b.nBytes := rfl

@[simp] theorem seqRes_trace (a b : Res) :
    (seqRes a b).trace = a.trace ++ b.trace := rfl

theorem flatten_dir_stop {fs : FS} {indir outdir : FPath} {r : Int}
    {v o : Bool} (h : r < 0 ∨ indir = outdir) :
    flatten_dir fs indir outdir r v o = ⟨fs, 0, 0, []⟩ := by
  rw [flatten_dir]
  exact dif_pos h

theorem flatten_dir_go {fs : FS} {indir outdir : FPath} {r : Int}
    {v o : Bool} (h1 : ¬ r < 0) (h2 : indir ≠ outdir) (hr : 0 ≤ r) :
    flatten_dir fs indir outdir r v o =
      flattenLoop fs (iterdir fs indir) outdir r hr v o := by
  rw [flatten_dir]
  rw [dif_neg (not_or.mpr ⟨h1, h2⟩)]

theorem flattenLoop_nil {fs : FS} {outdir : FPath} {r : Int} {hr : 0 ≤ r}
    {v o : Bool} : flattenLoop fs [] outdir r hr v o = ⟨fs, 0, 0, []⟩ := by
  rw [flattenLoop]

theorem flattenLoop_cons_dir {fs : FS} {p : FPath} {rest : List FPath}
    {outdir : FPath} {r : Int} {hr : 0 ≤ r} {v o : Bool}
    (h : isDirFS fs p = true) :
    flattenLoop fs (p :: rest) outdir r hr v o =
      seqRes (flatten_dir fs p outdir (r - 1) v o)
        (flattenLoop (flatten_dir fs p outdir (r - 1) v o).fs rest outdir r hr
          v o) := by
  rw [flattenLoop]
  simp [h, seqRes]

theorem flattenLoop_cons_skip {fs : FS} {p : FPath} {rest : List FPath}
    {outdir : FPath} {r : Int} {hr : 0 ≤ r} {v o : Bool}
    (hd : isDirFS fs p = false) (hf : isFileFS fs p = true)
    (hex : (existsFS fs (outdir ++ [lastName p]) && !o) = true) :
    flattenLoop fs (p :: rest) outdir r hr v o =
      seqRes ⟨fs, 0, 0, [Event.visited p]⟩
        (flattenLoop fs rest outdir r hr v o) := by
  rw [flattenLoop]
  simp [hd, hf, hex, seqRes]

theorem flattenLoop_cons_copy {fs : FS} {p : FPath} {rest : List FPath}
    {outdir : FPath} {r : Int} {hr : 0 ≤ r} {v o : Bool}
    (hd : isDirFS fs p = false) (hf : isFileFS fs p = true)
    (hex : (existsFS fs (outdir ++ [lastName p]) && !o) = false) :
    flattenLoop fs (p :: rest) outdir r hr v o =
      seqRes
        ⟨setFile fs (outdir ++ [lastName p]) (contentOf fs p), 1,
          statSize (setFile fs (outdir ++ [lastName p]) (contentOf fs p)) p,
          Event.visited p ::
            ((if v then [Event.printed (outdir ++ [lastName p])] else []) ++
              [Event.copied p (outdir ++ [lastName p]) (contentOf fs p)
                (statSize (setFile fs (outdir ++ [lastName p])
                  (contentOf fs p)) p)])⟩
        (flattenLoop (setFile fs (outdir ++ [lastName p]) (contentOf fs p))
          rest outdir r hr v o) := by
  rw [flattenLoop]
  simp [hd, hf, hex, seqRes]

theorem flattenLoop_cons_other {fs : FS} {p : FPath} {rest : List FPath}
    {outdir : FPath} {r : Int} {hr : 0 ≤ r} {v o : Bool}
    (hd : isDirFS fs p = false) (hf : isFileFS fs p = false) :
    flattenLoop fs (p :: rest) outdir r hr v o =
      flattenLoop fs rest outdir r hr v o := by
  rw [flattenLoop]
  simp [hd, hf]

theorem reachDirs_stop {fs : FS} {d : FPath} {r : Int} (h : r < 0) :
    reachDirs fs d r = [] := by
  rw [reachDirs]
  exact dif_pos h

theorem reachDirs_go {fs : FS} {d : FPath} {r : Int} (h : ¬ r < 0)
    (hr : 0 ≤ r) :
    reachDirs fs d r = d :: reachDirsLoop fs (iterdir fs d) r hr := by
  rw [reachDirs]
  rw [dif_neg h]

theorem reachDirsLoop_nil {fs : FS} {r : Int} {hr : 0 ≤ r} :
    reachDirsLoop fs [] r hr = [] := by
  rw [reachDirsLoop]

theorem reachDirsLoop_cons {fs : FS} {p : FPath} {rest : List FPath}
    {r : Int} {hr : 0 ≤ r} :
    reachDirsLoop fs (p :: rest) r hr =
      (if isDirFS fs p then reachDirs fs p (r - 1) else []) ++
        reachDirsLoop fs rest r hr := by
  rw [reachDirsLoop]

theorem reachFiles_stop {fs : FS} {d : FPath} {r : Int} (h : r < 0) :
    reachFiles fs d r = [] := by
  rw [reachFiles]
  exact dif_pos h

theorem reachFiles_go {fs : FS} {d : FPath} {r : Int} (h : ¬ r < 0)
    (hr : 0 ≤ r) :
    reachFiles fs d r = reachFilesLoop fs (iterdir fs d) r hr := by
  rw [reachFiles]
  rw [dif_neg h]

theorem reachFilesLoop_nil {fs : FS} {r : Int} {hr : 0 ≤ r} :
    reachFilesLoop fs [] r hr = [] := by
  rw [reachFilesLoop]

theorem reachFilesLoop_cons {fs : FS} {p : FPath} {rest : List FPath}
    {r : Int} {hr : 0 ≤ r} :
    reachFilesLoop fs (p :: rest) r hr =
      (if isDirFS fs p then reachFiles fs p (r - 1)
       else if isFileFS fs p then [p] else []) ++
        reachFilesLoop fs rest r hr := by
  rw [reachFilesLoop]

/-! Induction principles following the recursion structure of the
traversal and of the reachability functions. -/

theorem flatten_induct
    (Pd : FS → FPath → FPath → Int → Bool → Bool → Prop)
    (Pl : FS → List FPath → FPath → Int → Bool → Bool → Prop)
    (base : ∀ fs i od r v o, (r < 0 ∨ i = od) → Pd fs i od r v o)
    (step : ∀ fs i od r v o, ¬ r < 0 → i ≠ od →
      Pl fs (iterdir fs i) od r v o → Pd fs i od r v o)
    (lnil : ∀ fs od r v o, 0 ≤ r → Pl fs [] od r v o)
    (lcons : ∀ fs p rest od r v o, 0 ≤ r →
      (∀ fsB iB, Pd fsB iB od (r - 1) v o) →
      (∀ fsB, Pl fsB rest od r v o) →
      Pl fs (p :: rest) od r v o) :
    (∀ fs i od r v o, Pd fs i od r v o) ∧
      (∀ fs paths od r v o, 0 ≤ r → Pl fs paths od r v o) := by
  have main : ∀ k : Nat, ∀ r : Int, (r + 1).toNat ≤ k →
      (∀ fs i od v o, Pd fs i od r v o) ∧
        (0 ≤ r → ∀ fs paths od v o, Pl fs paths od r v o) := by
    intro k
    induction k using Nat.strong_induction_on with
    | _ k ih =>
      intro r hrk
      have hloop : 0 ≤ r → ∀ paths fs od v o, Pl fs paths od r v o := by
        intro hr paths
        induction paths with
        | nil => exact fun fs od v o => lnil fs od r v o hr
        | cons p rest ihp =>
          intro fs od v o
          refine lcons fs p rest od r v o hr ?_ ?_
          · intro fsB iB
            exact (ih r.toNat (by omega) (r - 1) (by omega)).1 fsB iB od v o
          · exact fun fsB => ihp fsB od v o
      refine ⟨?_, fun hr fs paths od v o => hloop hr paths fs od v o⟩
      intro fs i od v o
      by_cases hstop : r < 0 ∨ i = od
      · exact base fs i od r v o hstop
      · push_neg at hstop
        exact step fs i od r v o (by omega) hstop.2 (hloop hstop.1 _ fs od v o)
  constructor
  · exact fun fs i od r v o => (main (r + 1).toNat r le_rfl).1 fs i od v o
  · exact fun fs paths od r v o hr =>
      (main (r + 1).toNat r le_rfl).2 hr fs paths od v o

theorem reach_induct (Pd : FS → FPath → Int → Prop)
    (Pl : FS → List FPath → Int → Prop)
    (base : ∀ fs d r, r < 0 → Pd fs d r)
    (step : ∀ fs d r, ¬ r < 0 → Pl fs (iterdir fs d) r → Pd fs d r)
    (lnil : ∀ fs r, 0 ≤ r → Pl fs [] r)
    (lcons : ∀ fs p rest r, 0 ≤ r → (∀ fsB dB, Pd fsB dB (r - 1)) →
      Pl fs rest r → Pl fs (p :: rest) r) :
    (∀ fs d r, Pd fs d r) ∧ (∀ fs paths r, 0 ≤ r → Pl fs paths r) := by
  have main : ∀ k : Nat, ∀ r : Int, (r + 1).toNat ≤ k →
      (∀ fs d, Pd fs d r) ∧ (0 ≤ r → ∀ fs paths, Pl fs paths r) := by
    intro k
    induction k using Nat.strong_induction_on with
    | _ k ih =>
      intro r hrk
      have hloop : 0 ≤ r → ∀ paths fs, Pl fs paths r := by
        intro hr paths
        induction paths with
        | nil => exact fun fs => lnil fs r hr
        | cons p rest ihp =>
          intro fs
          refine lcons fs p rest r hr ?_ (ihp fs)
          intro fsB dB
          exact (ih r.toNat (by omega) (r - 1) (by omega)).1 fsB dB
      refine ⟨?_, fun hr fs paths => hloop hr paths fs⟩
      intro fs d
      by_cases hstop : r < 0
      · exact base fs d r hstop
      · exact step fs d r hstop (hloop (Int.not_lt.mp hstop) _ fs)
  constructor
  · exact fun fs d r => (main (r + 1).toNat r le_rfl).1 fs d
  · exact fun fs paths r hr => (main (r + 1).toNat r le_rfl).2 hr fs paths

/-! The final filesystem of a traversal is exactly the initial one with the
trace's copy operations applied in order, and every copy destination is a
direct child of the destination directory. -/

theorem flatten_ops_all :
    (∀ fs i od r v o,
      (flatten_dir fs i od r v o).fs =
        applyCopies fs (copyOps (flatten_dir fs i od r v o).trace) ∧
      ∀ x ∈ copiedOf (flatten_dir fs i od r v o).trace,
        (x.2.1).dropLast = od) ∧
    (∀ fs paths od r v o (hr : 0 ≤ r),
      (flattenLoop fs paths od r hr v o).fs =
        applyCopies fs (copyOps (flattenLoop fs paths od r hr v o).trace) ∧
      ∀ x ∈ copiedOf (flattenLoop fs paths od r hr v o).trace,
        (x.2.1).dropLast = od) := by
  have H := flatten_induct
    (fun fs i od r v o =>
      (flatten_dir fs i od r v o).fs =
        applyCopies fs (copyOps (flatten_dir fs i od r v o).trace) ∧
      ∀ x ∈ copiedOf (flatten_dir fs i od r v o).trace, (x.2.1).dropLast = od)
    (fun fs paths od r v o => ∀ hr : 0 ≤ r,
      (flattenLoop fs paths od r hr v o).fs =
        applyCopies fs (copyOps (flattenLoop fs paths od r hr v o).trace) ∧
      ∀ x ∈ copiedOf (flattenLoop fs paths od r hr v o).trace,
        (x.2.1).dropLast = od)
    ?base ?step ?lnil ?lcons
  · exact ⟨H.1, fun fs paths od r v o hr => H.2 fs paths od r v o hr hr⟩
  case base =>
    intro fs i od r v o h
    rw [flatten_dir_stop h]
    simp [copyOps, applyCopies]
  case step =>
    intro fs i od r v o h1 h2 hP
    rw [flatten_dir_go h1 h2 (Int.not_lt.mp h1)]
    exact hP (Int.not_lt.mp h1)
  case lnil =>
    intro fs od r v o hr hr2
    rw [flattenLoop_nil]
    simp [copyOps, applyCopies]
  case lcons =>
    intro fs p rest od r v o hr ihd ihl hr2
    cases hd : isDirFS fs p with
    | true =>
      rw [flattenLoop_cons_dir hd]
      obtain ⟨s1, s2⟩ := ihd fs p
      obtain ⟨l1, l2⟩ := ihl (flatten_dir fs p od (r - 1) v o).fs hr2
      constructor
      · simp only [seqRes_fs, seqRes_trace, copyOps_append]
        rw [applyCopies_append, ← s1, l1]
      · simp only [seqRes_trace, copiedOf_append]
        intro x hx
        rcases List.mem_append.mp hx with h | h
        · exact s2 x h
        · exact l2 x h
    | false =>
      cases hf : isFileFS fs p with
      | false =>
        rw [flattenLoop_cons_other hd hf]
        exact ihl fs hr2
      | true =>
        cases hex : (existsFS fs (od ++ [lastName p]) && !o) with
        | true =>
          rw [flattenLoop_cons_skip hd hf hex]
          obtain ⟨l1, l2⟩ := ihl fs hr2
          constructor
          · simpa [copyOps] using l1
          · intro x hx
            simp only [seqRes_trace, List.cons_append, List.nil_append,
              copiedOf_visited_cons] at hx
            exact l2 x hx
        | false =>
          rw [flattenLoop_cons_copy hd hf hex]
          obtain ⟨l1, l2⟩ :=
            ihl (setFile fs (od ++ [lastName p]) (contentOf fs p)) hr2
          constructor
          · cases v <;>
              simpa [copyOps, applyCopies] using l1
          · intro x hx
            rcases v with _ | _ <;>
              simp only [seqRes_trace, List.cons_append, List.nil_append,
                copiedOf_visited_cons, copiedOf_printed_cons,
                copiedOf_copied_cons, Bool.false_eq_true, if_false,
                if_true] at hx <;>
              rcases List.mem_cons.mp hx with h | h
            · rw [h]
              simp
            · exact l2 x h
            · rw [h]
              simp
            · exact l2 x h

theorem flatten_dir_fs_applyCopies (fs : FS) (i od : FPath) (r : Int)
    (v o : Bool) :
    (flatten_dir fs i od r v o).fs =
      applyCopies fs (copyOps (flatten_dir fs i od r v o).trace) :=
  (flatten_ops_all.1 fs i od r v o).1

theorem flatten_dir_copied_dst (fs : FS) (i od : FPath) (r : Int)
    (v o : Bool) :
    ∀ x ∈ copiedOf (flatten_dir fs i od r v o).trace, (x.2.1).dropLast = od :=
  (flatten_ops_all.1 fs i od r v o).2

theorem flattenLoop_fs_applyCopies (fs : FS) (paths : List FPath)
    (od : FPath) (r : Int) (hr : 0 ≤ r) (v o : Bool) :
    (flattenLoop fs paths od r hr v o).fs =
      applyCopies fs (copyOps (flattenLoop fs paths od r hr v o).trace) :=
  (flatten_ops_all.2 fs paths od r v o hr).1

theorem flattenLoop_copied_dst (fs : FS) (paths : List FPath) (od : FPath)
    (r : Int) (hr : 0 ≤ r) (v o : Bool) :
    ∀ x ∈ copiedOf (flattenLoop fs paths od r hr v o).trace,
      (x.2.1).dropLast = od :=
  (flatten_ops_all.2 fs paths od r v o hr).2

theorem copyOps_dst {od : FPath} {t : List Event}
    (h : ∀ x ∈ copiedOf t, (x.2.1).dropLast = od) :
    ∀ op ∈ copyOps t, (op.1).dropLast = od := by
  intro op hop
  obtain ⟨x, hx, rfl⟩ := List.mem_map.mp hop
  exact h x hx

/-! Agreement of two filesystems outside the destination directory.  The
traversal only ever writes direct children of `outdir`, so agreement is
preserved, and the traversal behaves the same on agreeing filesystems. -/

/-- `Ag od fs fsB` holds when `fs` and `fsB` agree on everything except the
direct children of `od`: directory listings other than `od`'s coincide, and
entries not directly inside `od` coincide. -/
def Ag (od : FPath) (fs fsB : FS) : Prop :=
  (∀ d, d ≠ od → iterdir fsB d = iterdir fs d) ∧
  (∀ q, q.dropLast ≠ od → lookupFS fsB q = lookupFS fs q)

theorem ag_refl (od : FPath) (fs : FS) : Ag od fs fs :=
  ⟨fun _ _ => rfl, fun _ _ => rfl⟩

theorem not_mem_copyKeys {od q : FPath} {ops : List (FPath × List Nat)}
    (hops : ∀ op ∈ ops, (op.1).dropLast = od) (hq : q.dropLast ≠ od) :
    q ∉ ops.map Prod.fst := by
  intro hm
  obtain ⟨op, hop, rfl⟩ := List.mem_map.mp hm
  exact hq (hops op hop)

theorem ag_applyCopies {od : FPath} {fs fsB : FS} (h : Ag od fs fsB)
    (ops : List (FPath × List Nat)) (hops : ∀ op ∈ ops, (op.1).dropLast = od) :
    Ag od fs (applyCopies fsB ops) := by
  constructor
  · intro d hd
    rw [iterdir_applyCopies ops hops fsB d hd]
    exact h.1 d hd
  · intro q hq
    rw [lookupFS_applyCopies_of_not_mem (not_mem_copyKeys hops hq)]
    exact h.2 q hq

theorem ag_applyCopies_both {od : FPath} {fs fsB : FS} (h : Ag od fs fsB)
    (ops : List (FPath × List Nat)) (hops : ∀ op ∈ ops, (op.1).dropLast = od) :
    Ag od (applyCopies fs ops) (applyCopies fsB ops) := by
  constructor
  · intro d hd
    rw [iterdir_applyCopies ops hops fsB d hd,
      iterdir_applyCopies ops hops fs d hd]
    exact h.1 d hd
  · intro q hq
    rw [lookupFS_applyCopies_of_not_mem (not_mem_copyKeys hops hq),
      lookupFS_applyCopies_of_not_mem (not_mem_copyKeys hops hq)]
    exact h.2 q hq

theorem ag_flatten_dir {od : FPath} {fs fsB : FS} (h : Ag od fs fsB)
    (i : FPath) (r : Int) (v o : Bool) :
    Ag od fs (flatten_dir fsB i od r v o).fs := by
  rw [flatten_dir_fs_applyCopies]
  exact ag_applyCopies h _ (copyOps_dst (flatten_dir_copied_dst fsB i od r v o))

theorem ag_flattenLoop {od : FPath} {fs fsB : FS} (h : Ag od fs fsB)
    (paths : List FPath) (r : Int) (hr : 0 ≤ r) (v o : Bool) :
    Ag od fs (flattenLoop fsB paths od r hr v o).fs := by
  rw [flattenLoop_fs_applyCopies]
  exact ag_applyCopies h _
    (copyOps_dst (flattenLoop_copied_dst fsB paths od r hr v o))

/-! The returned counters are exactly the length and size sum of the copies
recorded in the trace. -/

theorem flatten_counts_all :
    (∀ fs i od r v o,
      (flatten_dir fs i od r v o).nFiles =
        (copiedOf (flatten_dir fs i od r v o).trace).length ∧
      (flatten_dir fs i od r v o).nBytes =
        ((copiedOf (flatten_dir fs i od r v o).trace).map
          (fun x => x.2.2.2)).sum) ∧
    (∀ fs paths od r v o (hr : 0 ≤ r),
      (flattenLoop fs paths od r hr v o).nFiles =
        (copiedOf (flattenLoop fs paths od r hr v o).trace).length ∧
      (flattenLoop fs paths od r hr v o).nBytes =
        ((copiedOf (flattenLoop fs paths od r hr v o).trace).map
          (fun x => x.2.2.2)).sum) := by
  have H := flatten_induct
    (fun fs i od r v o =>
      (flatten_dir fs i od r v o).nFiles =
        (copiedOf (flatten_dir fs i od r v o).trace).length ∧
      (flatten_dir fs i od r v o).nBytes =
        ((copiedOf (flatten_dir fs i od r v o).trace).map
          (fun x => x.2.2.2)).sum)
    (fun fs paths od r v o => ∀ hr : 0 ≤ r,
      (flattenLoop fs paths od r hr v o).nFiles =
        (copiedOf (flattenLoop fs paths od r hr v o).trace).length ∧
      (flattenLoop fs paths od r hr v o).nBytes =
        ((copiedOf (flattenLoop fs paths od r hr v o).trace).map
          (fun x => x.2.2.2)).sum)
    ?base ?step ?lnil ?lcons
  · exact ⟨H.1, fun fs paths od r v o hr => H.2 fs paths od r v o hr hr⟩
  case base =>
    intro fs i od r v o h
    rw [flatten_dir_stop h]
    simp
  case step =>
    intro fs i od r v o h1 h2 hP
    rw [flatten_dir_go h1 h2 (Int.not_lt.mp h1)]
    exact hP (Int.not_lt.mp h1)
  case lnil =>
    intro fs od r v o hr hr2
    rw [flattenLoop_nil]
    simp
  case lcons =>
    intro fs p rest od r v o hr ihd ihl hr2
    cases hd : isDirFS fs p with
    | true =>
      rw [flattenLoop_cons_dir hd]
      obtain ⟨s1, s2⟩ := ihd fs p
      obtain ⟨l1, l2⟩ := ihl (flatten_dir fs p od (r - 1) v o).fs hr2
      constructor
      · simp [copiedOf_append, s1, l1]
      · simp [copiedOf_append, s2, l2]
    | false =>
      cases hf : isFileFS fs p with
      | false =>
        rw [flattenLoop_cons_other hd hf]
        exact ihl fs hr2
      | true =>
        cases hex : (existsFS fs (od ++ [lastName p]) && !o) with
        | true =>
          rw [flattenLoop_cons_skip hd hf hex]
          obtain ⟨l1, l2⟩ := ihl fs hr2
          constructor
          · simpa using l1
          · simpa using l2
        | false =>
          rw [flattenLoop_cons_copy hd hf hex]
          obtain ⟨l1, l2⟩ :=
            ihl (setFile fs (od ++ [lastName p]) (contentOf fs p)) hr2
          constructor
          · cases v <;> simp [copiedOf_append, l1] <;> omega
          · cases v <;> simp [copiedOf_append, l2]

theorem copiedOf_printed_opt (v : Bool) (x : FPath) (t : List Event) :
    copiedOf ((if v then [Event.printed x] else []) ++ t) = copiedOf t := by
  cases v <;> simp

theorem printedOf_printed_opt (v : Bool) (x : FPath) (t : List Event) :
    printedOf ((if v then [Event.printed x] else []) ++ t) =
      (if v then [x] else []) ++ printedOf t := by
  cases v <;> simp

theorem visitedOf_printed_opt (v : Bool) (x : FPath) (t : List Event) :
    visitedOf ((if v then [Event.printed x] else []) ++ t) = visitedOf t := by
  cases v <;> simp

/-! The verbose flag does not influence the filesystem, the counters, or
the visits and copies; it only controls the print events, of which there is
exactly one per copy, naming the copy's destination. -/

theorem flatten_verbose_all :
    (∀ fs i od r v o,
      (flatten_dir fs i od r v o).fs = (flatten_dir fs i od r false o).fs ∧
      (flatten_dir fs i od r v o).nFiles =
        (flatten_dir fs i od r false o).nFiles ∧
      (flatten_dir fs i od r v o).nBytes =
        (flatten_dir fs i od r false o).nBytes ∧
      copiedOf (flatten_dir fs i od r v o).trace =
        copiedOf (flatten_dir fs i od r false o).trace ∧
      visitedOf (flatten_dir fs i od r v o).trace =
        visitedOf (flatten_dir fs i od r false o).trace ∧
      printedOf (flatten_dir fs i od r v o).trace =
        (if v then (copiedOf (flatten_dir fs i od r v o).trace).map
          (fun x => x.2.1) else [])) ∧
    (∀ fs paths od r v o (hr : 0 ≤ r),
      (flattenLoop fs paths od r hr v o).fs =
        (flattenLoop fs paths od r hr false o).fs ∧
      (flattenLoop fs paths od r hr v o).nFiles =
        (flattenLoop fs paths od r hr false o).nFiles ∧
      (flattenLoop fs paths od r hr v o).nBytes =
        (flattenLoop fs paths od r hr false o).nBytes ∧
      copiedOf (flattenLoop fs paths od r hr v o).trace =
        copiedOf (flattenLoop fs paths od r hr false o).trace ∧
      visitedOf (flattenLoop fs paths od r hr v o).trace =
        visitedOf (flattenLoop fs paths od r hr false o).trace ∧
      printedOf (flattenLoop fs paths od r hr v o).trace =
        (if v then (copiedOf (flattenLoop fs paths od r hr v o).trace).map
          (fun x => x.2.1) else [])) := by
  have H := flatten_induct
    (fun fs i od r v o =>
      (flatten_dir fs i od r v o).fs = (flatten_dir fs i od r false o).fs ∧
      (flatten_dir fs i od r v o).nFiles =
        (flatten_dir fs i od r false o).nFiles ∧
      (flatten_dir fs i od r v o).nBytes =
        (flatten_dir fs i od r false o).nBytes ∧
      copiedOf (flatten_dir fs i od r v o).trace =
        copiedOf (flatten_dir fs i od r false o).trace ∧
      visitedOf (flatten_dir fs i od r v o).trace =
        visitedOf (flatten_dir fs i od r false o).trace ∧
      printedOf (flatten_dir fs i od r v o).trace =
        (if v then (copiedOf (flatten_dir fs i od r v o).trace).map
          (fun x => x.2.1) else []))
    (fun fs paths od r v o => ∀ hr : 0 ≤ r,
      (flattenLoop fs paths od r hr v o).fs =
        (flattenLoop fs paths od r hr false o).fs ∧
      (flattenLoop fs paths od r hr v o).nFiles =
        (flattenLoop fs paths od r hr false o).nFiles ∧
      (flattenLoop fs paths od r hr v o).nBytes =
        (flattenLoop fs paths od r hr false o).nBytes ∧
      copiedOf (flattenLoop fs paths od r hr v o).trace =
        copiedOf (flattenLoop fs paths od r hr false o).trace ∧
      visitedOf (flattenLoop fs paths od r hr v o).trace =
        visitedOf (flattenLoop fs paths od r hr false o).trace ∧
      printedOf (flattenLoop fs paths od r hr v o).trace =
        (if v then (copiedOf (flattenLoop fs paths od r hr v o).trace).map
          (fun x => x.2.1) else []))
    ?base ?step ?lnil ?lcons
  · exact ⟨H.1, fun fs paths od r v o hr => H.2 fs paths od r v o hr hr⟩
  case base =>
    intro fs i od r v o h
    rw [flatten_dir_stop h, flatten_dir_stop h]
    simp
  case step =>
    intro fs i od r v o h1 h2 hP
    rw [flatten_dir_go h1 h2 (Int.not_lt.mp h1),
      flatten_dir_go h1 h2 (Int.not_lt.mp h1)]
    exact hP (Int.not_lt.mp h1)
  case lnil =>
    intro fs od r v o hr hr2
    rw [flattenLoop_nil, flattenLoop_nil]
    simp
  case lcons =>
    intro fs p rest od r v o hr ihd ihl hr2
    cases hd : isDirFS fs p with
    | true =>
      rw [flattenLoop_cons_dir hd, flattenLoop_cons_dir hd]
      obtain ⟨s1, s2, s3, s4, s5, s6⟩ := ihd fs p
      rw [← s1]
      obtain ⟨l1, l2, l3, l4, l5, l6⟩ :=
        ihl (flatten_dir fs p od (r - 1) v o).fs hr2
      refine ⟨?_, ?_, ?_, ?_, ?_, ?_⟩
      · simpa using l1
      · simp only [seqRes_nFiles, s2, l2]
      · simp only [seqRes_nBytes, s3, l3]
      · simp only [seqRes_trace, copiedOf_append, s4, l4]
      · simp only [seqRes_trace, visitedOf_append, s5, l5]
      · simp only [seqRes_trace, printedOf_append, copiedOf_append,
          List.map_append, s6, l6]
        cases v <;> simp
    | false =>
      cases hf : isFileFS fs p with
      | false =>
        rw [flattenLoop_cons_other hd hf, flattenLoop_cons_other hd hf]
        exact ihl fs hr2
      | true =>
        cases hex : (existsFS fs (od ++ [lastName p]) && !o) with
        | true =>
          rw [flattenLoop_cons_skip hd hf hex, flattenLoop_cons_skip hd hf hex]
          obtain ⟨l1, l2, l3, l4, l5, l6⟩ := ihl fs hr2
          refine ⟨?_, ?_, ?_, ?_, ?_, ?_⟩
          · simpa using l1
          · simpa using l2
          · simpa using l3
          · simpa only [seqRes_trace, List.singleton_append,
              copiedOf_visited_cons] using l4
          · simp only [seqRes_trace, List.singleton_append,
              visitedOf_visited_cons, l5]
          · simpa only [seqRes_trace, List.singleton_append,
              printedOf_visited_cons, copiedOf_visited_cons] using l6
        | false =>
          rw [flattenLoop_cons_copy hd hf hex, flattenLoop_cons_copy hd hf hex]
          obtain ⟨l1, l2, l3, l4, l5, l6⟩ :=
            ihl (setFile fs (od ++ [lastName p]) (contentOf fs p)) hr2
          refine ⟨?_, ?_, ?_, ?_, ?_, ?_⟩
          · simpa using l1
          · simpa using l2
          · simpa using l3
          · cases v <;>
              simp only [seqRes_trace, List.cons_append, List.nil_append,
                List.singleton_append, copiedOf_visited_cons,
                copiedOf_printed_cons, copiedOf_copied_cons, if_true, if_false,
                Bool.false_eq_true, l4]
          · cases v <;>
              simp only [seqRes_trace, List.cons_append, List.nil_append,
                List.singleton_append, visitedOf_visited_cons,
                visitedOf_printed_cons, visitedOf_copied_cons, if_true,
                if_false, Bool.false_eq_true, l5]
          · cases v <;>
              simp only [seqRes_trace, List.cons_append, List.nil_append,
                List.singleton_append, printedOf_visited_cons,
                printedOf_printed_cons, printedOf_copied_cons,
                copiedOf_visited_cons, copiedOf_printed_cons,
                copiedOf_copied_cons, if_true, if_false, Bool.false_eq_true,
                l6] <;> simp

/-! With `overwrite = false`, a path that already exists is never written,
never the destination of a copy, and never printed: the skip policy
protects every pre-existing entry. -/

theorem flatten_skip_protect_all :
    (∀ fs i od r v,
      ∀ q, existsFS fs q = true →
        lookupFS (flatten_dir fs i od r v false).fs q = lookupFS fs q ∧
        (∀ x ∈ copiedOf (flatten_dir fs i od r v false).trace, x.2.1 ≠ q) ∧
        (∀ d ∈ printedOf (flatten_dir fs i od r v false).trace, d ≠ q)) ∧
    (∀ fs paths od r v (hr : 0 ≤ r),
      ∀ q, existsFS fs q = true →
        lookupFS (flattenLoop fs paths od r hr v false).fs q = lookupFS fs q ∧
        (∀ x ∈ copiedOf (flattenLoop fs paths od r hr v false).trace,
          x.2.1 ≠ q) ∧
        (∀ d ∈ printedOf (flattenLoop fs paths od r hr v false).trace,
          d ≠ q)) := by
  have H := flatten_induct
    (fun fs i od r v o => o = false → ∀ q, existsFS fs q = true →
      lookupFS (flatten_dir fs i od r v o).fs q = lookupFS fs q ∧
      (∀ x ∈ copiedOf (flatten_dir fs i od r v o).trace, x.2.1 ≠ q) ∧
      (∀ d ∈ printedOf (flatten_dir fs i od r v o).trace, d ≠ q))
    (fun fs paths od r v o => o = false → ∀ (hr : 0 ≤ r) q,
      existsFS fs q = true →
      lookupFS (flattenLoop fs paths od r hr v o).fs q = lookupFS fs q ∧
      (∀ x ∈ copiedOf (flattenLoop fs paths od r hr v o).trace, x.2.1 ≠ q) ∧
      (∀ d ∈ printedOf (flattenLoop fs paths od r hr v o).trace, d ≠ q))
    ?base ?step ?lnil ?lcons
  · exact ⟨fun fs i od r v => H.1 fs i od r v false rfl,
      fun fs paths od r v hr => H.2 fs paths od r v false hr rfl hr⟩
  case base =>
    intro fs i od r v o h ho q hq
    rw [flatten_dir_stop h]
    simp
  case step =>
    intro fs i od r v o h1 h2 hP ho q hq
    rw [flatten_dir_go h1 h2 (Int.not_lt.mp h1)]
    exact hP ho (Int.not_lt.mp h1) q hq
  case lnil =>
    intro fs od r v o hr ho hr2 q hq
    rw [flattenLoop_nil]
    simp
  case lcons =>
    intro fs p rest od r v o hr ihd ihl ho hr2 q hq
    subst ho
    cases hd : isDirFS fs p with
    | true =>
      rw [flattenLoop_cons_dir hd]
      obtain ⟨s1, s2, s3⟩ := ihd fs p rfl q hq
      have hq2 : existsFS (flatten_dir fs p od (r - 1) v false).fs q = true := by
        unfold existsFS
        rw [s1]
        exact hq
      obtain ⟨l1, l2, l3⟩ :=
        ihl (flatten_dir fs p od (r - 1) v false).fs rfl hr2 q hq2
      refine ⟨?_, ?_, ?_⟩
      · rw [seqRes_fs, l1, s1]
      · simp only [seqRes_trace, copiedOf_append]
        intro x hx
        rcases List.mem_append.mp hx with h | h
        · exact s2 x h
        · exact l2 x h
      · simp only [seqRes_trace, printedOf_append]
        intro d hdm
        rcases List.mem_append.mp hdm with h | h
        · exact s3 d h
        · exact l3 d h
    | false =>
      cases hf : isFileFS fs p with
      | false =>
        rw [flattenLoop_cons_other hd hf]
        exact ihl fs rfl hr2 q hq
      | true =>
        cases hexe : existsFS fs (od ++ [lastName p]) with
        | true =>
          rw [flattenLoop_cons_skip hd hf (by simp [hexe])]
          obtain ⟨l1, l2, l3⟩ := ihl fs rfl hr2 q hq
          refine ⟨by simpa using l1, ?_, ?_⟩
          · simpa only [seqRes_trace, List.singleton_append,
              copiedOf_visited_cons] using l2
          · simpa only [seqRes_trace, List.singleton_append,
              printedOf_visited_cons] using l3
        | false =>
          rw [flattenLoop_cons_copy hd hf (by simp [hexe])]
          have hne : od ++ [lastName p] ≠ q := by
            intro h
            rw [h] at hexe
            rw [hq] at hexe
            exact absurd hexe (by simp)
          have hl1 : lookupFS (setFile fs (od ++ [lastName p])
              (contentOf fs p)) q = lookupFS fs q := by
            rw [lookupFS_setFile, if_neg hne]
          have hq2 : existsFS (setFile fs (od ++ [lastName p])
              (contentOf fs p)) q = true := by
            unfold existsFS
            rw [hl1]
            exact hq
          obtain ⟨l1, l2, l3⟩ :=
            ihl (setFile fs (od ++ [lastName p]) (contentOf fs p)) rfl hr2 q hq2
          refine ⟨?_, ?_, ?_⟩
          · rw [seqRes_fs, l1, hl1]
          · simp only [seqRes_trace, List.cons_append, List.append_assoc,
              List.singleton_append, copiedOf_visited_cons,
              copiedOf_printed_opt, copiedOf_copied_cons]
            intro x hx
            rcases List.mem_cons.mp hx with h | h
            · rw [h]
              exact hne
            · exact l2 x h
          · simp only [seqRes_trace, List.cons_append, List.append_assoc,
              List.singleton_append, printedOf_visited_cons,
              printedOf_printed_opt, printedOf_copied_cons]
            intro d hdm
            rcases List.mem_append.mp hdm with h | h
            · cases v with
              | true =>
                simp only [if_true] at h
                rcases List.mem_singleton.mp h with rfl
                exact hne
              | false => simp at h
            · exact l3 d h

/-! Lockstep lemma: with `overwrite = true` the traversal's trace and
counters depend on the filesystem only through the part outside the
destination directory, which the traversal never modifies. -/

theorem flatten_lockstep_all :
    (∀ fsB i od r v, ∀ fs, Ag od fs fsB →
      (flatten_dir fsB i od r v true).trace =
        (flatten_dir fs i od r v true).trace ∧
      (flatten_dir fsB i od r v true).nFiles =
        (flatten_dir fs i od r v true).nFiles ∧
      (flatten_dir fsB i od r v true).nBytes =
        (flatten_dir fs i od r v true).nBytes) ∧
    (∀ fsB paths od r v (hr : 0 ≤ r), ∀ fs, Ag od fs fsB →
      (∀ p ∈ paths, p.dropLast ≠ od) →
      (flattenLoop fsB paths od r hr v true).trace =
        (flattenLoop fs paths od r hr v true).trace ∧
      (flattenLoop fsB paths od r hr v true).nFiles =
        (flattenLoop fs paths od r hr v true).nFiles ∧
      (flattenLoop fsB paths od r hr v true).nBytes =
        (flattenLoop fs paths od r hr v true).nBytes) := by
  have H := flatten_induct
    (fun fsB i od r v o => o = true → ∀ fs, Ag od fs fsB →
      (flatten_dir fsB i od r v o).trace =
        (flatten_dir fs i od r v o).trace ∧
      (flatten_dir fsB i od r v o).nFiles =
        (flatten_dir fs i od r v o).nFiles ∧
      (flatten_dir fsB i od r v o).nBytes =
        (flatten_dir fs i od r v o).nBytes)
    (fun fsB paths od r v o => o = true → ∀ (hr : 0 ≤ r) fs, Ag od fs fsB →
      (∀ p ∈ paths, p.dropLast ≠ od) →
      (flattenLoop fsB paths od r hr v o).trace =
        (flattenLoop fs paths od r hr v o).trace ∧
      (flattenLoop fsB paths od r hr v o).nFiles =
        (flattenLoop fs paths od r hr v o).nFiles ∧
      (flattenLoop fsB paths od r hr v o).nBytes =
        (flattenLoop fs paths od r hr v o).nBytes) ?base ?step ?lnil ?lcons
  · exact ⟨fun fsB i od r v fs hag => H.1 fsB i od r v true rfl fs hag,
      fun fsB paths od r v hr fs hag hp =>
        H.2 fsB paths od r v true hr rfl hr fs hag hp⟩
  case base =>
    intro fsB i od r v o h ho fs hag
    rw [flatten_dir_stop h, flatten_dir_stop h]
    simp
  case step =>
    intro fsB i od r v o h1 h2 hP ho fs hag
    rw [flatten_dir_go h1 h2 (Int.not_lt.mp h1),
      flatten_dir_go h1 h2 (Int.not_lt.mp h1), ← hag.1 i h2]
    refine hP ho (Int.not_lt.mp h1) fs hag ?_
    intro p hp
    rw [(mem_iterdir hp).1]
    exact h2
  case lnil =>
    intro fsB od r v o hr ho hr2 fs hag hp
    rw [flattenLoop_nil, flattenLoop_nil]
    simp
  case lcons =>
    intro fsB p rest od r v o hr ihd ihl ho hr2 fs hag hp
    subst ho
    have hpd : p.dropLast ≠ od := hp p (List.mem_cons_self p rest)
    have hlook : lookupFS fsB p = lookupFS fs p := hag.2 p hpd
    have hprest : ∀ q ∈ rest, q.dropLast ≠ od :=
      fun q hq => hp q (List.mem_cons_of_mem p hq)
    cases hd : isDirFS fsB p with
    | true =>
      have hd2 : isDirFS fs p = true := by
        rw [← isDirFS_congr hlook]
        exact hd
      rw [flattenLoop_cons_dir hd, flattenLoop_cons_dir hd2]
      obtain ⟨t1, t2, t3⟩ := ihd fsB p rfl fs hag
      have hag2 : Ag od (flatten_dir fs p od (r - 1) v true).fs
          (flatten_dir fsB p od (r - 1) v true).fs := by
        rw [flatten_dir_fs_applyCopies fs, flatten_dir_fs_applyCopies fsB,
          ← t1]
        exact ag_applyCopies_both hag _
          (copyOps_dst (flatten_dir_copied_dst fsB p od (r - 1) v true))
      obtain ⟨u1, u2, u3⟩ :=
        ihl (flatten_dir fsB p od (r - 1) v true).fs rfl hr2
          (flatten_dir fs p od (r - 1) v true).fs hag2 hprest
      exact ⟨by simp [t1, u1], by simp [t2, u2], by simp [t3, u3]⟩
    | false =>
      have hd2 : isDirFS fs p = false := by
        rw [← isDirFS_congr hlook]
        exact hd
      cases hf : isFileFS fsB p with
      | false =>
        have hf2 : isFileFS fs p = false := by
          rw [← isFileFS_congr hlook]
          exact hf
        rw [flattenLoop_cons_other hd hf, flattenLoop_cons_other hd2 hf2]
        exact ihl fsB rfl hr2 fs hag hprest
      | true =>
        have hf2 : isFileFS fs p = true := by
          rw [← isFileFS_congr hlook]
          exact hf
        rw [flattenLoop_cons_copy hd hf (by simp),
          flattenLoop_cons_copy hd2 hf2 (by simp)]
        have hc : contentOf fsB p = contentOf fs p := contentOf_congr hlook
        have hout : (od ++ [lastName p]).dropLast = od := by simp
        have hpo : p ≠ od ++ [lastName p] := by
          intro h
          rw [h] at hpd
          exact hpd hout
        have hsz : statSize (setFile fsB (od ++ [lastName p])
            (contentOf fsB p)) p =
            statSize (setFile fs (od ++ [lastName p]) (contentOf fs p)) p := by
          rw [statSize_setFile_ne (Ne.symm hpo),
            statSize_setFile_ne (Ne.symm hpo)]
          exact statSize_congr hlook
        have hag2 : Ag od (setFile fs (od ++ [lastName p]) (contentOf fs p))
            (setFile fsB (od ++ [lastName p]) (contentOf fsB p)) := by
          rw [hc]
          have := ag_applyCopies_both hag
            [(od ++ [lastName p], contentOf fs p)]
            (by intro op hop; rcases List.mem_singleton.mp hop with rfl; simpa)
          simpa [applyCopies] using this
        obtain ⟨u1, u2, u3⟩ :=
          ihl (setFile fsB (od ++ [lastName p]) (contentOf fsB p)) rfl hr2
            (setFile fs (od ++ [lastName p]) (contentOf fs p)) hag2 hprest
        refine ⟨?_, by simp [u2], by simp [hsz, u3]⟩
        simp only [seqRes_trace, List.cons_append, List.append_assoc,
          List.singleton_append]
        rw [u1, hsz, hc]

/-! Sublist lemma: the visited files form a sublist of the reachable files
(computed on any filesystem agreeing with the current one outside the
destination), and the copies, paired with the sizes recorded at copy time,
form a sublist of the reachable files paired with their original sizes. -/

theorem flatten_sublist_all :
    (∀ fsB i od r v o, ∀ fs, Ag od fs fsB →
      List.Sublist (visitedOf (flatten_dir fsB i od r v o).trace)
        (reachFiles fs i r) ∧
      List.Sublist ((copiedOf (flatten_dir fsB i od r v o).trace).map
          (fun x => (x.1, x.2.2.2)))
        ((reachFiles fs i r).map (fun p => (p, statSize fs p)))) ∧
    (∀ fsB paths od r v o (hr : 0 ≤ r), ∀ fs, Ag od fs fsB →
      (∀ p ∈ paths, p.dropLast ≠ od) →
      List.Sublist (visitedOf (flattenLoop fsB paths od r hr v o).trace)
        (reachFilesLoop fs paths r hr) ∧
      List.Sublist ((copiedOf (flattenLoop fsB paths od r hr v o).trace).map
          (fun x => (x.1, x.2.2.2)))
        ((reachFilesLoop fs paths r hr).map (fun p => (p, statSize fs p)))) := by
  have H := flatten_induct
    (fun fsB i od r v o => ∀ fs, Ag od fs fsB →
      List.Sublist (visitedOf (flatten_dir fsB i od r v o).trace)
        (reachFiles fs i r) ∧
      List.Sublist ((copiedOf (flatten_dir fsB i od r v o).trace).map
          (fun x => (x.1, x.2.2.2)))
        ((reachFiles fs i r).map (fun p => (p, statSize fs p))))
    (fun fsB paths od r v o => ∀ (hr : 0 ≤ r) fs, Ag od fs fsB →
      (∀ p ∈ paths, p.dropLast ≠ od) →
      List.Sublist (visitedOf (flattenLoop fsB paths od r hr v o).trace)
        (reachFilesLoop fs paths r hr) ∧
      List.Sublist ((copiedOf (flattenLoop fsB paths od r hr v o).trace).map
          (fun x => (x.1, x.2.2.2)))
        ((reachFilesLoop fs paths r hr).map (fun p => (p, statSize fs p))))
    ?base ?step ?lnil ?lcons
  · exact ⟨H.1,
      fun fsB paths od r v o hr fs hag hp => H.2 fsB paths od r v o hr hr fs hag hp⟩
  case base =>
    intro fsB i od r v o h fs hag
    rw [flatten_dir_stop h]
    simp only [visitedOf_nil, copiedOf_nil, List.map_nil]
    exact ⟨List.nil_sublist _, List.nil_sublist _⟩
  case step =>
    intro fsB i od r v o h1 h2 hP fs hag
    rw [flatten_dir_go h1 h2 (Int.not_lt.mp h1),
      reachFiles_go h1 (Int.not_lt.mp h1), ← hag.1 i h2]
    refine hP (Int.not_lt.mp h1) fs hag ?_
    intro p hp
    rw [(mem_iterdir hp).1]
    exact h2
  case lnil =>
    intro fsB od r v o hr hr2 fs hag hp
    rw [flattenLoop_nil, reachFilesLoop_nil]
    simp
  case lcons =>
    intro fsB p rest od r v o hr ihd ihl hr2 fs hag hp
    have hpd : p.dropLast ≠ od := hp p (List.mem_cons_self p rest)
    have hlook : lookupFS fsB p = lookupFS fs p := hag.2 p hpd
    have hprest : ∀ q ∈ rest, q.dropLast ≠ od :=
      fun q hq => hp q (List.mem_cons_of_mem p hq)
    rw [reachFilesLoop_cons]
    cases hd : isDirFS fsB p with
    | true =>
      have hd2 : isDirFS fs p = true := by
        rw [← isDirFS_congr hlook]
        exact hd
      rw [flattenLoop_cons_dir hd, if_pos hd2]
      obtain ⟨t1, t2⟩ := ihd fsB p fs hag
      have hag2 : Ag od fs (flatten_dir fsB p od (r - 1) v o).fs :=
        ag_flatten_dir hag p (r - 1) v o
      obtain ⟨u1, u2⟩ :=
        ihl (flatten_dir fsB p od (r - 1) v o).fs hr2 fs hag2 hprest
      constructor
      · simp only [seqRes_trace, visitedOf_append]
        exact t1.append u1
      · simp only [seqRes_trace, copiedOf_append, List.map_append]
        exact t2.append u2
    | false =>
      have hd2 : isDirFS fs p = false := by
        rw [← isDirFS_congr hlook]
        exact hd
      cases hf : isFileFS fsB p with
      | false =>
        have hf2 : isFileFS fs p = false := by
          rw [← isFileFS_congr hlook]
          exact hf
        rw [flattenLoop_cons_other hd hf, if_neg (by simp [hd2]),
          if_neg (by simp [hf2])]
        simpa using ihl fsB hr2 fs hag hprest
      | true =>
        have hf2 : isFileFS fs p = true := by
          rw [← isFileFS_congr hlook]
          exact hf
        rw [if_neg (by simp [hd2]), if_pos hf2]
        have hout : (od ++ [lastName p]).dropLast = od := by simp
        have hpo : p ≠ od ++ [lastName p] := by
          intro h
          rw [h] at hpd
          exact hpd hout
        cases hex : (existsFS fsB (od ++ [lastName p]) && !o) with
        | true =>
          rw [flattenLoop_cons_skip hd hf hex]
          obtain ⟨u1, u2⟩ := ihl fsB hr2 fs hag hprest
          constructor
          · simp only [seqRes_trace, List.singleton_append,
              visitedOf_visited_cons, List.singleton_append]
            exact u1.cons₂ p
          · simp only [seqRes_trace, List.singleton_append,
              copiedOf_visited_cons, List.map_cons]
            exact u2.cons _
        | false =>
          rw [flattenLoop_cons_copy hd hf hex]
          have hag2 : Ag od fs
              (setFile fsB (od ++ [lastName p]) (contentOf fsB p)) := by
            have := ag_applyCopies hag
              [(od ++ [lastName p], contentOf fsB p)]
              (by intro op hop; rcases List.mem_singleton.mp hop with rfl
                  simpa)
            simpa [applyCopies] using this
          obtain ⟨u1, u2⟩ :=
            ihl (setFile fsB (od ++ [lastName p]) (contentOf fsB p)) hr2 fs
              hag2 hprest
          have hsz : statSize (setFile fsB (od ++ [lastName p])
              (contentOf fsB p)) p = statSize fs p := by
            rw [statSize_setFile_ne (Ne.symm hpo)]
            exact statSize_congr hlook
          constructor
          · simp only [seqRes_trace, List.cons_append, List.append_assoc,
              List.singleton_append, visitedOf_visited_cons,
              visitedOf_printed_opt, visitedOf_copied_cons,
              List.singleton_append]
            exact u1.cons₂ p
          · simp only [seqRes_trace, List.cons_append, List.append_assoc,
              List.singleton_append, copiedOf_visited_cons,
              copiedOf_printed_opt, copiedOf_copied_cons, List.map_cons,
              hsz]
            exact u2.cons₂ _

/-! Lemmas about the pure copy policy `specCopied`. -/

theorem specCopied_congr (o : Bool) (files : List FPath)
    {E E' : FName → Bool} (h : ∀ n, E n = E' n) :
    specCopied o files E = specCopied o files E' := by
  induction files generalizing E E' with
  | nil => rfl
  | cons p rest ih =>
    simp only [specCopied, h (lastName p)]
    cases hg : (E' (lastName p) && !o) with
    | true =>
      rw [if_pos rfl, if_pos rfl]
      exact ih h
    | false =>
      rw [if_neg (by simp), if_neg (by simp)]
      rw [ih (fun m => by rw [h m])]

theorem specCopied_append (o : Bool) (a b : List FPath) (E : FName → Bool) :
    specCopied o (a ++ b) E =
      specCopied o a E ++
        specCopied o b
          (fun n => decide (n ∈ (specCopied o a E).map lastName) || E n) := by
  induction a generalizing E with
  | nil =>
    simp only [List.nil_append]
    have hz : specCopied o ([] : List FPath) E = [] := rfl
    rw [hz]
    exact specCopied_congr o b (fun n => by simp)
  | cons p a' ih =>
    simp only [List.cons_append, specCopied]
    by_cases hg : (E (lastName p) && !o) = true
    · simp only [if_pos hg, List.append_eq]
      rw [ih]
    · simp only [if_neg hg, List.append_eq]
      simp only [List.cons_append, List.map_cons]
      rw [ih]
      congr 1
      congr 1
      apply specCopied_congr
      intro n
      by_cases h1 : n ∈ (specCopied o a' fun m => m == lastName p || E m).map
          lastName <;>
        by_cases h2 : n = lastName p <;>
          simp [h1, h2]

theorem existsFS_applyCopies (ops : List (FPath × List Nat)) (fsB : FS)
    (x : FPath) :
    existsFS (applyCopies fsB ops) x =
      (decide (x ∈ ops.map Prod.fst) || existsFS fsB x) := by
  simp only [existsFS, lookupFS_applyCopies]
  cases h : lastWriteOf ops x with
  | some c =>
    have hx : x ∈ ops.map Prod.fst := by
      by_contra hx
      rw [(lastWriteOf_eq_none_iff ops x).mpr hx] at h
      exact absurd h (by simp)
    simp [hx]
  | none =>
    have hx : x ∉ ops.map Prod.fst := (lastWriteOf_eq_none_iff ops x).mp h
    simp [hx]

theorem mem_map_concat_iff (od : FPath) (n : FName) (l : List FPath) :
    ((od ++ [n]) ∈ l.map (fun p => od ++ [lastName p])) ↔
      n ∈ l.map lastName := by
  simp only [List.mem_map]
  constructor
  · rintro ⟨p, hp, he⟩
    refine ⟨p, hp, ?_⟩
    have h2 := List.append_cancel_left he
    exact (List.cons.injEq _ _ _ _ ▸ h2).1
  · rintro ⟨p, hp, he⟩
    exact ⟨p, hp, by rw [he]⟩

/-- The per-file copy event payload, in terms of the unmodified source
filesystem. -/
def copyEvt (fs : FS) (od : FPath) (p : FPath) :
    FPath × FPath × List Nat × Nat :=
  (p, od ++ [lastName p], contentOf fs p, statSize fs p)

/-- The per-file write operation, in terms of the unmodified source
filesystem. -/
def copyOp (fs : FS) (od : FPath) (p : FPath) : FPath × List Nat :=
  (od ++ [lastName p], contentOf fs p)

/-- The set of names already present in the destination directory. -/
def existNames (fsB : FS) (od : FPath) : FName → Bool :=
  fun n => existsFS fsB (od ++ [n])

/-! Master correspondence: when the destination directory is not among the
scanned directories, the traversal visits exactly the reachable files in
order, copies exactly the files selected by the pure policy `specCopied`,
and the final filesystem is the initial one with those copies applied. -/

theorem flatten_master_all :
    (∀ fsB i od r v o, ∀ fs, Ag od fs fsB → od ∉ reachDirs fs i r →
      visitedOf (flatten_dir fsB i od r v o).trace = reachFiles fs i r ∧
      copiedOf (flatten_dir fsB i od r v o).trace =
        (specCopied o (reachFiles fs i r) (existNames fsB od)).map
          (copyEvt fs od) ∧
      (flatten_dir fsB i od r v o).fs =
        applyCopies fsB
          ((specCopied o (reachFiles fs i r) (existNames fsB od)).map
            (copyOp fs od))) ∧
    (∀ fsB paths od r v o (hr : 0 ≤ r), ∀ fs, Ag od fs fsB →
      (∀ p ∈ paths, p.dropLast ≠ od) →
      od ∉ reachDirsLoop fs paths r hr →
      visitedOf (flattenLoop fsB paths od r hr v o).trace =
        reachFilesLoop fs paths r hr ∧
      copiedOf (flattenLoop fsB paths od r hr v o).trace =
        (specCopied o (reachFilesLoop fs paths r hr) (existNames fsB od)).map
          (copyEvt fs od) ∧
      (flattenLoop fsB paths od r hr v o).fs =
        applyCopies fsB
          ((specCopied o (reachFilesLoop fs paths r hr)
            (existNames fsB od)).map (copyOp fs od))) := by
  have H := flatten_induct
    (fun fsB i od r v o => ∀ fs, Ag od fs fsB → od ∉ reachDirs fs i r →
      visitedOf (flatten_dir fsB i od r v o).trace = reachFiles fs i r ∧
      copiedOf (flatten_dir fsB i od r v o).trace =
        (specCopied o (reachFiles fs i r) (existNames fsB od)).map
          (copyEvt fs od) ∧
      (flatten_dir fsB i od r v o).fs =
        applyCopies fsB
          ((specCopied o (reachFiles fs i r) (existNames fsB od)).map
            (copyOp fs od)))
    (fun fsB paths od r v o => ∀ (hr : 0 ≤ r) fs, Ag od fs fsB →
      (∀ p ∈ paths, p.dropLast ≠ od) →
      od ∉ reachDirsLoop fs paths r hr →
      visitedOf (flattenLoop fsB paths od r hr v o).trace =
        reachFilesLoop fs paths r hr ∧
      copiedOf (flattenLoop fsB paths od r hr v o).trace =
        (specCopied o (reachFilesLoop fs paths r hr) (existNames fsB od)).map
          (copyEvt fs od) ∧
      (flattenLoop fsB paths od r hr v o).fs =
        applyCopies fsB
          ((specCopied o (reachFilesLoop fs paths r hr)
            (existNames fsB od)).map (copyOp fs od)))
    ?base ?step ?lnil ?lcons
  · exact ⟨H.1, fun fsB paths od r v o hr fs hag hp hdj =>
      H.2 fsB paths od r v o hr hr fs hag hp hdj⟩
  case base =>
    intro fsB i od r v o h fs hag hdisj
    by_cases hlt : r < 0
    · rw [flatten_dir_stop (Or.inl hlt), reachFiles_stop hlt]
      simp [specCopied, applyCopies]
    · rcases h with hlt2 | heq
      · exact absurd hlt2 hlt
      · exfalso
        apply hdisj
        subst heq
        rw [reachDirs_go hlt (Int.not_lt.mp hlt)]
        exact List.mem_cons_self _ _
  case step =>
    intro fsB i od r v o h1 h2 hP fs hag hdisj
    have hr := Int.not_lt.mp h1
    have hiter : iterdir fsB i = iterdir fs i := hag.1 i h2
    rw [reachDirs_go h1 hr] at hdisj
    simp only [List.mem_cons, not_or] at hdisj
    rw [flatten_dir_go h1 h2 hr, reachFiles_go h1 hr, hiter]
    rw [hiter] at hP
    exact hP hr fs hag
      (fun p hp => by rw [(mem_iterdir hp).1]; exact h2) hdisj.2
  case lnil =>
    intro fsB od r v o hr hr2 fs hag hp hdisj
    rw [flattenLoop_nil, reachFilesLoop_nil]
    simp [specCopied, applyCopies]
  case lcons =>
    intro fsB p rest od r v o hr ihd ihl hr2 fs hag hp hdisj
    have hpd : p.dropLast ≠ od := hp p (List.mem_cons_self p rest)
    have hlook : lookupFS fsB p = lookupFS fs p := hag.2 p hpd
    have hprest : ∀ q ∈ rest, q.dropLast ≠ od :=
      fun q hq => hp q (List.mem_cons_of_mem p hq)
    rw [reachDirsLoop_cons] at hdisj
    simp only [List.mem_append, not_or] at hdisj
    obtain ⟨hdsub, hdrest⟩ := hdisj
    rw [reachFilesLoop_cons]
    cases hd : isDirFS fsB p with
    | true =>
      have hd2 : isDirFS fs p = true := by
        rw [← isDirFS_congr hlook]
        exact hd
      rw [if_pos hd2] at hdsub
      rw [flattenLoop_cons_dir hd, if_pos hd2]
      obtain ⟨A1, A2, A3⟩ := ihd fsB p fs hag hdsub
      obtain ⟨B1, B2, B3⟩ :=
        ihl (flatten_dir fsB p od (r - 1) v o).fs hr2 fs
          (ag_flatten_dir hag p (r - 1) v o) hprest hdrest
      have hkeys : ((specCopied o (reachFiles fs p (r - 1))
          (existNames fsB od)).map (copyOp fs od)).map Prod.fst =
          (specCopied o (reachFiles fs p (r - 1)) (existNames fsB od)).map
            (fun q => od ++ [lastName q]) := by
        rw [List.map_map]
        rfl
      have hE : ∀ n,
          (decide (n ∈ (specCopied o (reachFiles fs p (r - 1))
            (existNames fsB od)).map lastName) || existNames fsB od n) =
          existNames ((flatten_dir fsB p od (r - 1) v o).fs) od n := by
        intro n
        show _ = existsFS (flatten_dir fsB p od (r - 1) v o).fs (od ++ [n])
        rw [A3, existsFS_applyCopies, hkeys]
        have := mem_map_concat_iff od n
          (specCopied o (reachFiles fs p (r - 1)) (existNames fsB od))
        by_cases hm : n ∈ (specCopied o (reachFiles fs p (r - 1))
            (existNames fsB od)).map lastName
        · simp [hm, this.mpr hm, existNames]
        · simp only [existNames]
          rw [decide_eq_false hm, decide_eq_false (fun hx => hm (this.mp hx))]
      have hcs : specCopied o
          (reachFiles fs p (r - 1) ++ reachFilesLoop fs rest r hr2)
          (existNames fsB od) =
          specCopied o (reachFiles fs p (r - 1)) (existNames fsB od) ++
            specCopied o (reachFilesLoop fs rest r hr2)
              (existNames ((flatten_dir fsB p od (r - 1) v o).fs) od) := by
        rw [specCopied_append]
        congr 1
        exact specCopied_congr o _ hE
      refine ⟨?_, ?_, ?_⟩
      · simp only [seqRes_trace, visitedOf_append, A1, B1]
      · simp only [seqRes_trace, copiedOf_append, A2, B2, hcs,
          List.map_append]
      · rw [seqRes_fs, B3, hcs, List.map_append, applyCopies_append, A3]
    | false =>
      have hd2 : isDirFS fs p = false := by
        rw [← isDirFS_congr hlook]
        exact hd
      cases hf : isFileFS fsB p with
      | false =>
        have hf2 : isFileFS fs p = false := by
          rw [← isFileFS_congr hlook]
          exact hf
        rw [flattenLoop_cons_other hd hf, if_neg (by simp [hd2]),
          if_neg (by simp [hf2]), List.nil_append]
        exact ihl fsB hr2 fs hag hprest hdrest
      | true =>
        have hf2 : isFileFS fs p = true := by
          rw [← isFileFS_congr hlook]
          exact hf
        rw [if_neg (by simp [hd2]), if_pos hf2, List.singleton_append]
        have hout : (od ++ [lastName p]).dropLast = od := by simp
        have hpo : p ≠ od ++ [lastName p] := by
          intro h
          rw [h] at hpd
          exact hpd hout
        cases hex : (existsFS fsB (od ++ [lastName p]) && !o) with
        | true =>
          rw [flattenLoop_cons_skip hd hf hex]
          obtain ⟨B1, B2, B3⟩ := ihl fsB hr2 fs hag hprest hdrest
          have hcs : specCopied o (p :: reachFilesLoop fs rest r hr2)
              (existNames fsB od) =
              specCopied o (reachFilesLoop fs rest r hr2)
                (existNames fsB od) := by
            simp only [specCopied, existNames]
            rw [if_pos hex]
          refine ⟨?_, ?_, ?_⟩
          · simp only [seqRes_trace, List.singleton_append,
              visitedOf_visited_cons, B1]
          · simp only [seqRes_trace, List.singleton_append,
              copiedOf_visited_cons, B2, hcs]
          · simp only [seqRes_fs, B3, hcs]
        | false =>
          rw [flattenLoop_cons_copy hd hf hex]
          have hc : contentOf fsB p = contentOf fs p := contentOf_congr hlook
          rw [hc]
          have hsz : statSize (setFile fsB (od ++ [lastName p])
              (contentOf fs p)) p = statSize fs p := by
            rw [statSize_setFile_ne (Ne.symm hpo)]
            exact statSize_congr hlook
          have hagR : Ag od fs
              (setFile fsB (od ++ [lastName p]) (contentOf fs p)) := by
            have := ag_applyCopies hag
              [(od ++ [lastName p], contentOf fs p)]
              (by intro op hop; rcases List.mem_singleton.mp hop with rfl
                  simpa)
            simpa [applyCopies] using this
          obtain ⟨B1, B2, B3⟩ :=
            ihl (setFile fsB (od ++ [lastName p]) (contentOf fs p)) hr2 fs
              hagR hprest hdrest
          have hE : ∀ m, (m == lastName p || existNames fsB od m) =
              existNames (setFile fsB (od ++ [lastName p])
                (contentOf fs p)) od m := by
            intro m
            show _ = existsFS _ (od ++ [m])
            rw [existsFS_setFile]
            by_cases hm : m = lastName p
            · subst hm
              simp
            · have hne : od ++ [lastName p] ≠ od ++ [m] := by
                intro hx
                have := List.append_cancel_left hx
                exact hm ((List.cons.injEq _ _ _ _ ▸ this).1).symm
              simp only [existNames]
              rw [if_neg hne]
              have hb : (m == lastName p) = false := by
                simp [hm]
              rw [hb, Bool.false_or]
          have hcs : specCopied o (p :: reachFilesLoop fs rest r hr2)
              (existNames fsB od) =
              p :: specCopied o (reachFilesLoop fs rest r hr2)
                (existNames (setFile fsB (od ++ [lastName p])
                  (contentOf fs p)) od) := by
            simp only [specCopied, existNames]
            rw [if_neg (by simp [hex] :
              ¬(existsFS fsB (od ++ [lastName p]) && !o) = true)]
            congr 1
            exact specCopied_congr o _ (fun m => by
              have := hE m
              simpa [existNames] using this)
          refine ⟨?_, ?_, ?_⟩
          · simp only [seqRes_trace, List.cons_append, List.append_assoc,
              List.singleton_append, List.nil_append, visitedOf_visited_cons]
            simp only [visitedOf_printed_opt]
            simp only [visitedOf_copied_cons]
            rw [B1]
          · simp only [seqRes_trace, List.cons_append, List.append_assoc,
              List.singleton_append, List.nil_append, copiedOf_visited_cons]
            simp only [copiedOf_printed_opt]
            simp only [copiedOf_copied_cons]
            rw [hsz, B2, hcs, List.map_cons]
            rfl
          · rw [seqRes_fs, B3, hcs, List.map_cons]
            rfl

/-! Characterization of the reachable files by exact nesting depth. -/

theorem length_mem_iterdir {fs : FS} {d q : FPath} (h : q ∈ iterdir fs d) :
    q.length = d.length + 1 := by
  have he := eq_parent_concat_lastName h
  rw [he, List.length_append, List.length_singleton]

theorem reachFiles_mem_iff :
    ∀ fs d r q, q ∈ reachFiles fs d r ↔
      ∃ k : Nat, (k : Int) ≤ r ∧ q ∈ filesAtDepth fs d k := by
  have H := reach_induct
    (fun fs d r => ∀ q, q ∈ reachFiles fs d r ↔
      ∃ k : Nat, (k : Int) ≤ r ∧ q ∈ filesAtDepth fs d k)
    (fun fs paths r => ∀ (hr : 0 ≤ r) q, q ∈ reachFilesLoop fs paths r hr ↔
      ((q ∈ paths ∧ isFileFS fs q = true) ∨
        ∃ c ∈ paths, isDirFS fs c = true ∧
          ∃ k : Nat, (k : Int) ≤ r - 1 ∧ q ∈ filesAtDepth fs c k))
    ?base ?step ?lnil ?lcons
  · exact fun fs d r q => H.1 fs d r q
  case base =>
    intro fs d r hlt q
    rw [reachFiles_stop hlt]
    simp only [List.not_mem_nil, false_iff]
    rintro ⟨k, hk, _⟩
    omega
  case step =>
    intro fs d r h1 hP q
    have hr := Int.not_lt.mp h1
    rw [reachFiles_go h1 hr, hP hr q]
    constructor
    · rintro (⟨hq, hfile⟩ | ⟨c, hc, hdir, k, hk, hq⟩)
      · refine ⟨0, by omega, ?_⟩
        simp only [filesAtDepth, List.mem_filter]
        exact ⟨hq, hfile⟩
      · refine ⟨k + 1, by push_cast; omega, ?_⟩
        simp only [filesAtDepth, List.mem_flatMap, List.mem_filter]
        exact ⟨c, ⟨hc, hdir⟩, hq⟩
    · rintro ⟨k, hk, hq⟩
      cases k with
      | zero =>
        left
        simp only [filesAtDepth, List.mem_filter] at hq
        exact hq
      | succ k' =>
        right
        simp only [filesAtDepth, List.mem_flatMap, List.mem_filter] at hq
        obtain ⟨c, ⟨hc, hdir⟩, hq⟩ := hq
        exact ⟨c, hc, hdir, k', by push_cast at hk ⊢; omega, hq⟩
  case lnil =>
    intro fs r hr hr2 q
    rw [reachFilesLoop_nil]
    simp
  case lcons =>
    intro fs p rest r hr ihd ihl hr2 q
    rw [reachFilesLoop_cons]
    rw [List.mem_append]
    rw [ihl hr2 q]
    constructor
    · rintro (hq | (⟨hq, hfile⟩ | ⟨c, hc, hdir, hrest⟩))
      · by_cases hd : isDirFS fs p = true
        · rw [if_pos hd] at hq
          rw [ihd fs p q] at hq
          obtain ⟨k, hk, hq⟩ := hq
          exact Or.inr ⟨p, List.mem_cons_self p rest, hd, k, hk, hq⟩
        · rw [if_neg hd] at hq
          by_cases hf : isFileFS fs p = true
          · rw [if_pos hf] at hq
            rcases List.mem_singleton.mp hq with rfl
            exact Or.inl ⟨List.mem_cons_self q rest, hf⟩
          · rw [if_neg hf] at hq
            exact absurd hq (List.not_mem_nil q)
      · exact Or.inl ⟨List.mem_cons_of_mem p hq, hfile⟩
      · exact Or.inr ⟨c, List.mem_cons_of_mem p hc, hdir, hrest⟩
    · rintro (⟨hq, hfile⟩ | ⟨c, hc, hdir, k, hk, hq⟩)
      · rcases List.mem_cons.mp hq with rfl | hq
        · left
          have hd : isDirFS fs q = false := by
            cases hlk : lookupFS fs q with
            | none => simp [isDirFS, hlk]
            | some e =>
              cases e with
              | file c => simp [isDirFS, hlk]
              | dir => simp [isFileFS, hlk] at hfile
          rw [if_neg (by simp [hd]), if_pos hfile]
          exact List.mem_singleton.mpr rfl
        · exact Or.inr (Or.inl ⟨hq, hfile⟩)
      · rcases List.mem_cons.mp hc with rfl | hc
        · left
          rw [if_pos hdir, ihd fs c q]
          exact ⟨k, hk, hq⟩
        · exact Or.inr (Or.inr ⟨c, hc, hdir, k, hk, hq⟩)

/-! Every reachable file lies strictly below the scanned directory, and
the reachable files of a well-formed filesystem are pairwise distinct. -/

theorem reachFiles_parentDir :
    (∀ fs d r, ∀ q ∈ reachFiles fs d r,
      d.length < q.length ∧ q.take d.length = d) ∧
    (∀ fs paths r (hr : 0 ≤ r), ∀ q ∈ reachFilesLoop fs paths r hr,
      ∃ p ∈ paths, q = p ∨
        (p.length < q.length ∧ q.take p.length = p)) := by
  have H := reach_induct
    (fun fs d r => ∀ q ∈ reachFiles fs d r,
      d.length < q.length ∧ q.take d.length = d)
    (fun fs paths r => ∀ (hr : 0 ≤ r), ∀ q ∈ reachFilesLoop fs paths r hr,
      ∃ p ∈ paths, q = p ∨ (p.length < q.length ∧ q.take p.length = p))
    ?base ?step ?lnil ?lcons
  · exact ⟨H.1, fun fs paths r hr => H.2 fs paths r hr hr⟩
  case base =>
    intro fs d r hlt q hq
    rw [reachFiles_stop hlt] at hq
    exact absurd hq (List.not_mem_nil q)
  case step =>
    intro fs d r h1 hP q hq
    have hr := Int.not_lt.mp h1
    rw [reachFiles_go h1 hr] at hq
    obtain ⟨p, hp, hcase⟩ := hP hr q hq
    have hpe := eq_parent_concat_lastName hp
    have hplen : p.length = d.length + 1 := length_mem_iterdir hp
    have hptake : p.take d.length = d := by
      rw [hpe]
      exact List.take_left d [lastName p]
    rcases hcase with rfl | ⟨hlt, htake⟩
    · exact ⟨by omega, hptake⟩
    · refine ⟨by omega, ?_⟩
      have hqt : q.take d.length = (q.take p.length).take d.length := by
        rw [List.take_take, min_eq_left (by omega)]
      rw [hqt, htake, hptake]
  case lnil =>
    intro fs r hr hr2 q hq
    rw [reachFilesLoop_nil] at hq
    exact absurd hq (List.not_mem_nil q)
  case lcons =>
    intro fs p rest r hr ihd ihl hr2 q hq
    rw [reachFilesLoop_cons, List.mem_append] at hq
    rcases hq with hq | hq
    · refine ⟨p, List.mem_cons_self p rest, ?_⟩
      by_cases hd : isDirFS fs p = true
      · rw [if_pos hd] at hq
        exact Or.inr (ihd fs p q hq)
      · rw [if_neg hd] at hq
        by_cases hf : isFileFS fs p = true
        · rw [if_pos hf] at hq
          exact Or.inl (List.mem_singleton.mp hq)
        · rw [if_neg hf] at hq
          exact absurd hq (List.not_mem_nil q)
    · obtain ⟨pw, hpw, hc⟩ := ihl hr2 q hq
      exact ⟨pw, List.mem_cons_of_mem p hpw, hc⟩

theorem iterdir_nodup {fs : FS} (hkeys : (fs.map Prod.fst).Nodup)
    (d : FPath) : (iterdir fs d).Nodup := by
  have hsub : List.Sublist ((fs.filter (fun en => childOf d en.1)).map
      (fun en => en.1)) (fs.map (fun en => en.1)) :=
    (List.filter_sublist fs).map _
  exact List.Nodup.sublist hsub hkeys

theorem reachFiles_nodup_all :
    (∀ fs d r, (fs.map Prod.fst).Nodup → (reachFiles fs d r).Nodup) ∧
    (∀ fs paths r (hr : 0 ≤ r), (fs.map Prod.fst).Nodup → paths.Nodup →
      ∀ L, (∀ p ∈ paths, p.length = L) →
        (reachFilesLoop fs paths r hr).Nodup) := by
  have H := reach_induct
    (fun fs d r => (fs.map Prod.fst).Nodup → (reachFiles fs d r).Nodup)
    (fun fs paths r => ∀ (hr : 0 ≤ r), (fs.map Prod.fst).Nodup →
      paths.Nodup → ∀ L, (∀ p ∈ paths, p.length = L) →
        (reachFilesLoop fs paths r hr).Nodup)
    ?base ?step ?lnil ?lcons
  · exact ⟨H.1, fun fs paths r hr => H.2 fs paths r hr hr⟩
  case base =>
    intro fs d r hlt hkeys
    rw [reachFiles_stop hlt]
    exact List.nodup_nil
  case step =>
    intro fs d r h1 hP hkeys
    have hr := Int.not_lt.mp h1
    rw [reachFiles_go h1 hr]
    exact hP hr hkeys (iterdir_nodup hkeys d) (d.length + 1)
      (fun p hp => length_mem_iterdir hp)
  case lnil =>
    intro fs r hr hr2 hkeys hnd L hL
    rw [reachFilesLoop_nil]
    exact List.nodup_nil
  case lcons =>
    intro fs p rest r hr ihd ihl hr2 hkeys hnd L hL
    rw [reachFilesLoop_cons]
    have hndrest : rest.Nodup := (List.nodup_cons.mp hnd).2
    have hpnotin : p ∉ rest := (List.nodup_cons.mp hnd).1
    have hLrest : ∀ q ∈ rest, q.length = L :=
      fun q hq => hL q (List.mem_cons_of_mem p hq)
    have hLp : p.length = L := hL p (List.mem_cons_self p rest)
    refine List.Nodup.append ?_ (ihl hr2 hkeys hndrest L hLrest) ?_
    · by_cases hd : isDirFS fs p = true
      · rw [if_pos hd]
        exact ihd fs p hkeys
      · rw [if_neg hd]
        by_cases hf : isFileFS fs p = true
        · rw [if_pos hf]
          exact List.nodup_singleton p
        · rw [if_neg hf]
          exact List.nodup_nil
    · intro q hqC hqR
      have hCchar : q = p ∨ (p.length < q.length ∧ q.take p.length = p) := by
        by_cases hd : isDirFS fs p = true
        · rw [if_pos hd] at hqC
          exact Or.inr (reachFiles_parentDir.1 fs p (r - 1) q hqC)
        · rw [if_neg hd] at hqC
          by_cases hf : isFileFS fs p = true
          · rw [if_pos hf] at hqC
            exact Or.inl (List.mem_singleton.mp hqC)
          · rw [if_neg hf] at hqC
            exact absurd hqC (List.not_mem_nil q)
      obtain ⟨pw, hpw, hcase⟩ := reachFiles_parentDir.2 fs rest r hr2 q hqR
      have hLw : pw.length = L := hLrest pw hpw
      have hpne : p ≠ pw := fun he => hpnotin (he ▸ hpw)
      rcases hCchar with rfl | ⟨hlt, htake⟩
      · rcases hcase with rfl | ⟨hlt2, htake2⟩
        · exact hpne rfl
        · omega
      · rcases hcase with rfl | ⟨hlt2, htake2⟩
        · omega
        · apply hpne
          rw [← htake, ← htake2, hLp, hLw]

/-! Closed forms of the copy policy, and small arithmetic helpers. -/

theorem specCopied_of_true (files : List FPath) (E : FName → Bool) :
    specCopied true files E = files := by
  induction files generalizing E with
  | nil => rfl
  | cons p rest ih => simp [specCopied, ih]

theorem specCopied_of_fresh (o : Bool) (files : List FPath)
    (E : FName → Bool) (hnd : (files.map lastName).Nodup)
    (hE : ∀ p ∈ files, E (lastName p) = false) :
    specCopied o files E = files := by
  induction files generalizing E with
  | nil => rfl
  | cons p rest ih =>
    rw [List.map_cons, List.nodup_cons] at hnd
    have hg : (E (lastName p) && !o) = false := by
      rw [hE p (List.mem_cons_self p rest)]
      simp
    simp only [specCopied]
    rw [if_neg (by simp [hg])]
    congr 1
    refine ih _ hnd.2 ?_
    intro q hq
    have h1 : lastName q ≠ lastName p := by
      intro he
      exact hnd.1 (he ▸ List.mem_map_of_mem lastName hq)
    simp [h1, hE q (List.mem_cons_of_mem _ hq)]

theorem specCopied_sublist (o : Bool) (files : List FPath)
    (E : FName → Bool) : List.Sublist (specCopied o files E) files := by
  induction files generalizing E with
  | nil => exact List.Sublist.refl _
  | cons p rest ih =>
    simp only [specCopied]
    by_cases hg : (E (lastName p) && !o) = true
    · rw [if_pos hg]
      exact (ih E).cons p
    · rw [if_neg hg]
      exact (ih _).cons₂ p

theorem sublist_sum_le {l1 l2 : List Nat} (h : List.Sublist l1 l2) :
    l1.sum ≤ l2.sum := by
  induction h with
  | slnil => simp
  | cons a h ih =>
    simp only [List.sum_cons]
    omega
  | cons₂ a h ih =>
    simp only [List.sum_cons]
    omega

theorem not_dir_of_file {fs : FS} {p : FPath} (h : isFileFS fs p = true) :
    isDirFS fs p = false := by
  cases hl : lookupFS fs p with
  | none => simp [isFileFS, hl] at h
  | some e =>
    cases e with
    | file c => simp [isDirFS, hl]
    | dir => simp [isFileFS, hl] at h

/-! With `overwrite = true`, every plain-file entry of the scanned list is
the source of a copy event with its original content and size. -/

theorem flattenLoop_copies_file (paths : List FPath) :
    ∀ fsB fs od r (hr : 0 ≤ r) v, Ag od fs fsB →
      (∀ q ∈ paths, q.dropLast ≠ od) →
      ∀ p ∈ paths, isFileFS fs p = true →
      (p, od ++ [lastName p], contentOf fs p, statSize fs p) ∈
        copiedOf (flattenLoop fsB paths od r hr v true).trace := by
  induction paths with
  | nil =>
    intro fsB fs od r hr v hag hpar p hp
    exact absurd hp (List.not_mem_nil p)
  | cons q rest ih =>
    intro fsB fs od r hr v hag hpar p hp hfile
    have hqd : q.dropLast ≠ od := hpar q (List.mem_cons_self q rest)
    have hlookq : lookupFS fsB q = lookupFS fs q := hag.2 q hqd
    have hparrest : ∀ x ∈ rest, x.dropLast ≠ od :=
      fun x hx => hpar x (List.mem_cons_of_mem q hx)
    rcases List.mem_cons.mp hp with rfl | hp2
    · have hf : isFileFS fsB p = true := by
        rw [isFileFS_congr hlookq]
        exact hfile
      have hd : isDirFS fsB p = false := by
        rw [isDirFS_congr hlookq]
        exact not_dir_of_file hfile
      rw [flattenLoop_cons_copy hd hf (by simp)]
      have hpo : p ≠ od ++ [lastName p] := by
        intro h
        apply hqd
        rw [h]
        simp
      have hc : contentOf fsB p = contentOf fs p := contentOf_congr hlookq
      have hsz : statSize (setFile fsB (od ++ [lastName p])
          (contentOf fs p)) p = statSize fs p := by
        rw [statSize_setFile_ne (Ne.symm hpo)]
        exact statSize_congr hlookq
      simp only [seqRes_trace, List.cons_append, List.append_assoc,
        List.singleton_append, List.nil_append, copiedOf_visited_cons]
      simp only [copiedOf_printed_opt]
      simp only [copiedOf_copied_cons]
      rw [hc, hsz]
      exact List.mem_cons_self _ _
    · cases hd : isDirFS fsB q with
      | true =>
        rw [flattenLoop_cons_dir hd]
        simp only [seqRes_trace, copiedOf_append, List.mem_append]
        right
        exact ih (flatten_dir fsB q od (r - 1) v true).fs fs od r hr v
          (ag_flatten_dir hag q (r - 1) v true) hparrest p hp2 hfile
      | false =>
        cases hf : isFileFS fsB q with
        | false =>
          rw [flattenLoop_cons_other hd hf]
          exact ih fsB fs od r hr v hag hparrest p hp2 hfile
        | true =>
          rw [flattenLoop_cons_copy hd hf (by simp)]
          simp only [seqRes_trace, List.cons_append, List.append_assoc,
            List.singleton_append, List.nil_append, copiedOf_visited_cons]
          simp only [copiedOf_printed_opt]
          simp only [copiedOf_copied_cons]
          refine List.mem_cons_of_mem _ ?_
          have hagR : Ag od fs
              (setFile fsB (od ++ [lastName q]) (contentOf fsB q)) := by
            have := ag_applyCopies hag
              [(od ++ [lastName q], contentOf fsB q)]
              (by intro op hop; rcases List.mem_singleton.mp hop with rfl
                  simpa)
            simpa [applyCopies] using this
          exact ih (setFile fsB (od ++ [lastName q]) (contentOf fsB q)) fs od
            r hr v hagR hparrest p hp2 hfile

/-! Fallible variant: the copy of a source path marked by `failing` raises
an I/O error.  The error is not caught anywhere: it propagates out of the
whole traversal and no partial result is returned. -/

mutual

/-- `flatten_dir` over a filesystem whose copy operation can fail.  The
`failing` oracle marks the source paths whose copy raises; the error value
is the offending source path. -/
def flatten_dirE (failing : FPath → Bool) (fs : FS) (indir outdir : FPath)
    (recursions_left : Int) (verbose overwrite : Bool) : Except FPath Res :=
  if h : recursions_left < 0 ∨ indir = outdir then Except.ok ⟨fs, 0, 0, []⟩
  else
    flattenLoopE failing fs (iterdir fs indir) outdir recursions_left
      (Int.not_lt.mp (fun hlt => h (Or.inl hlt))) verbose overwrite
termination_by (2 * (recursions_left + 1).toNat + 1, 0)

/-- Loop form of `flatten_dirE`. -/
def flattenLoopE (failing : FPath → Bool) (fs : FS) (paths : List FPath)
    (outdir : FPath) (r : Int) (hr : 0 ≤ r) (verbose overwrite : Bool) :
    Except FPath Res :=
  match paths with
  | [] => Except.ok ⟨fs, 0, 0, []⟩
  | path :: rest =>
    if isDirFS fs path then
      match flatten_dirE failing fs path outdir (r - 1) verbose overwrite with
      | Except.error e => Except.error e
      | Except.ok sub =>
        match flattenLoopE failing sub.fs rest outdir r hr verbose
            overwrite with
        | Except.error e => Except.error e
        | Except.ok res =>
          Except.ok ⟨res.fs, sub.nFiles + res.nFiles,
            sub.nBytes + res.nBytes, sub.trace ++ res.trace⟩
    else if isFileFS fs path then
      if existsFS fs (outdir ++ [lastName path]) && !overwrite then
        match flattenLoopE failing fs rest outdir r hr verbose overwrite with
        | Except.error e => Except.error e
        | Except.ok res =>
          Except.ok ⟨res.fs, res.nFiles, res.nBytes,
            Event.visited path :: res.trace⟩
      else
        if failing path then Except.error path
        else
          match flattenLoopE failing
              (setFile fs (outdir ++ [lastName path]) (contentOf fs path))
              rest outdir r hr verbose overwrite with
          | Except.error e => Except.error e
          | Except.ok res =>
            Except.ok ⟨res.fs, 1 + res.nFiles,
              statSize (setFile fs (outdir ++ [lastName path])
                (contentOf fs path)) path + res.nBytes,
              Event.visited path ::
                ((if verbose then
                    [Event.printed (outdir ++ [lastName path])] else []) ++
                  (Event.copied path (outdir ++ [lastName path])
                    (contentOf fs path)
                    (statSize (setFile fs (outdir ++ [lastName path])
                      (contentOf fs path)) path) :: res.trace))⟩
    else
      flattenLoopE failing fs rest outdir r hr verbose overwrite
termination_by (2 * (r + 1).toNat, paths.length)

end

theorem flatten_dirE_stop {failing : FPath → Bool} {fs : FS}
    {indir outdir : FPath} {r : Int} {v o : Bool}
    (h : r < 0 ∨ indir = outdir) :
    flatten_dirE failing fs indir outdir r v o = Except.ok ⟨fs, 0, 0, []⟩ := by
  rw [flatten_dirE]
  exact dif_pos h

theorem flatten_dirE_go {failing : FPath → Bool} {fs : FS}
    {indir outdir : FPath} {r : Int} {v o : Bool} (h1 : ¬ r < 0)
    (h2 : indir ≠ outdir) (hr : 0 ≤ r) :
    flatten_dirE failing fs indir outdir r v o =
      flattenLoopE failing fs (iterdir fs indir) outdir r hr v o := by
  rw [flatten_dirE]
  rw [dif_neg (not_or.mpr ⟨h1, h2⟩)]

theorem flattenLoopE_nil {failing : FPath → Bool} {fs : FS} {outdir : FPath}
    {r : Int} {hr : 0 ≤ r} {v o : Bool} :
    flattenLoopE failing fs [] outdir r hr v o =
      Except.ok ⟨fs, 0, 0, []⟩ := by
  rw [flattenLoopE]

theorem flattenLoopE_cons_dir {failing : FPath → Bool} {fs : FS} {p : FPath}
    {rest : List FPath} {outdir : FPath} {r : Int} {hr : 0 ≤ r} {v o : Bool}
    (h : isDirFS fs p = true) :
    flattenLoopE failing fs (p :: rest) outdir r hr v o =
      (match flatten_dirE failing fs p outdir (r - 1) v o with
      | Except.error e => Except.error e
      | Except.ok sub =>
        match flattenLoopE failing sub.fs rest outdir r hr v o with
        | Except.error e => Except.error e
        | Except.ok res =>
          Except.ok ⟨res.fs, sub.nFiles + res.nFiles,
            sub.nBytes + res.nBytes, sub.trace ++ res.trace⟩) := by
  rw [flattenLoopE]
  simp [h]

theorem flattenLoopE_cons_skip {failing : FPath → Bool} {fs : FS} {p : FPath}
    {rest : List FPath} {outdir : FPath} {r : Int} {hr : 0 ≤ r} {v o : Bool}
    (hd : isDirFS fs p = false) (hf : isFileFS fs p = true)
    (hex : (existsFS fs (outdir ++ [lastName p]) && !o) = true) :
    flattenLoopE failing fs (p :: rest) outdir r hr v o =
      (match flattenLoopE failing fs rest outdir r hr v o with
      | Except.error e => Except.error e
      | Except.ok res =>
        Except.ok ⟨res.fs, res.nFiles, res.nBytes,
          Event.visited p :: res.trace⟩) := by
  rw [flattenLoopE]
  simp [hd, hf, hex]

theorem flattenLoopE_cons_fail {failing : FPath → Bool} {fs : FS} {p : FPath}
    {rest : List FPath} {outdir : FPath} {r : Int} {hr : 0 ≤ r} {v o : Bool}
    (hd : isDirFS fs p = false) (hf : isFileFS fs p = true)
    (hex : (existsFS fs (outdir ++ [lastName p]) && !o) = false)
    (hfail : failing p = true) :
    flattenLoopE failing fs (p :: rest) outdir r hr v o = Except.error p := by
  rw [flattenLoopE]
  simp [hd, hf, hex, hfail]

theorem flattenLoopE_cons_copy {failing : FPath → Bool} {fs : FS} {p : FPath}
    {rest : List FPath} {outdir : FPath} {r : Int} {hr : 0 ≤ r} {v o : Bool}
    (hd : isDirFS fs p = false) (hf : isFileFS fs p = true)
    (hex : (existsFS fs (outdir ++ [lastName p]) && !o) = false)
    (hfail : failing p = false) :
    flattenLoopE failing fs (p :: rest) outdir r hr v o =
      (match flattenLoopE failing
          (setFile fs (outdir ++ [lastName p]) (contentOf fs p)) rest outdir
          r hr v o with
      | Except.error e => Except.error e
      | Except.ok res =>
        Except.ok ⟨res.fs, 1 + res.nFiles,
          statSize (setFile fs (outdir ++ [lastName p])
            (contentOf fs p)) p + res.nBytes,
          Event.visited p ::
            ((if v then [Event.printed (outdir ++ [lastName p])] else []) ++
              (Event.copied p (outdir ++ [lastName p]) (contentOf fs p)
                (statSize (setFile fs (outdir ++ [lastName p])
                  (contentOf fs p)) p) :: res.trace))⟩) := by
  rw [flattenLoopE]
  simp [hd, hf, hex, hfail]

theorem flattenLoopE_cons_other {failing : FPath → Bool} {fs : FS}
    {p : FPath} {rest : List FPath} {outdir : FPath} {r : Int} {hr : 0 ≤ r}
    {v o : Bool} (hd : isDirFS fs p = false) (hf : isFileFS fs p = false) :
    flattenLoopE failing fs (p :: rest) outdir r hr v o =
      flattenLoopE failing fs rest outdir r hr v o := by
  rw [flattenLoopE]
  simp [hd, hf]

theorem flattenLoopE_cons_dir_err {failing : FPath → Bool} {fs : FS}
    {p : FPath} {rest : List FPath} {outdir : FPath} {r : Int} {hr : 0 ≤ r}
    {v o : Bool} {e : FPath} (h : isDirFS fs p = true)
    (he : flatten_dirE failing fs p outdir (r - 1) v o = Except.error e) :
    flattenLoopE failing fs (p :: rest) outdir r hr v o = Except.error e := by
  rw [flattenLoopE_cons_dir h, he]

theorem flattenLoopE_cons_dir_ok {failing : FPath → Bool} {fs : FS}
    {p : FPath} {rest : List FPath} {outdir : FPath} {r : Int} {hr : 0 ≤ r}
    {v o : Bool} {sub : Res} (h : isDirFS fs p = true)
    (hsub : flatten_dirE failing fs p outdir (r - 1) v o = Except.ok sub) :
    flattenLoopE failing fs (p :: rest) outdir r hr v o =
      (match flattenLoopE failing sub.fs rest outdir r hr v o with
      | Except.error e => Except.error e
      | Except.ok res =>
        Except.ok ⟨res.fs, sub.nFiles + res.nFiles,
          sub.nBytes + res.nBytes, sub.trace ++ res.trace⟩) := by
  rw [flattenLoopE_cons_dir h, hsub]

theorem flattenLoopE_cons_skip_ok {failing : FPath → Bool} {fs : FS}
    {p : FPath} {rest : List FPath} {outdir : FPath} {r : Int} {hr : 0 ≤ r}
    {v o : Bool} {res : Res} (hd : isDirFS fs p = false)
    (hf : isFileFS fs p = true)
    (hex : (existsFS fs (outdir ++ [lastName p]) && !o) = true)
    (hrest : flattenLoopE failing fs rest outdir r hr v o = Except.ok res) :
    flattenLoopE failing fs (p :: rest) outdir r hr v o =
      Except.ok ⟨res.fs, res.nFiles, res.nBytes,
        Event.visited p :: res.trace⟩ := by
  rw [flattenLoopE_cons_skip hd hf hex, hrest]

theorem flattenLoopE_cons_copy_err {failing : FPath → Bool} {fs : FS}
    {p : FPath} {rest : List FPath} {outdir : FPath} {r : Int} {hr : 0 ≤ r}
    {v o : Bool} {e : FPath} (hd : isDirFS fs p = false)
    (hf : isFileFS fs p = true)
    (hex : (existsFS fs (outdir ++ [lastName p]) && !o) = false)
    (hfail : failing p = false)
    (he : flattenLoopE failing
      (setFile fs (outdir ++ [lastName p]) (contentOf fs p)) rest outdir r hr
      v o = Except.error e) :
    flattenLoopE failing fs (p :: rest) outdir r hr v o = Except.error e := by
  rw [flattenLoopE_cons_copy hd hf hex hfail, he]

theorem flattenLoopE_cons_copy_ok {failing : FPath → Bool} {fs : FS}
    {p : FPath} {rest : List FPath} {outdir : FPath} {r : Int} {hr : 0 ≤ r}
    {v o : Bool} {res : Res} (hd : isDirFS fs p = false)
    (hf : isFileFS fs p = true)
    (hex : (existsFS fs (outdir ++ [lastName p]) && !o) = false)
    (hfail : failing p = false)
    (hrest : flattenLoopE failing
      (setFile fs (outdir ++ [lastName p]) (contentOf fs p)) rest outdir r hr
      v o = Except.ok res) :
    flattenLoopE failing fs (p :: rest) outdir r hr v o =
      Except.ok ⟨res.fs, 1 + res.nFiles,
        statSize (setFile fs (outdir ++ [lastName p])
          (contentOf fs p)) p + res.nBytes,
        Event.visited p ::
          ((if v then [Event.printed (outdir ++ [lastName p])] else []) ++
            (Event.copied p (outdir ++ [lastName p]) (contentOf fs p)
              (statSize (setFile fs (outdir ++ [lastName p])
                (contentOf fs p)) p) :: res.trace))⟩ := by
  rw [flattenLoopE_cons_copy hd hf hex hfail, hrest]

/-! When no copy fails, the fallible traversal returns exactly the plain
traversal's result. -/

theorem flatten_dirE_refines :
    (∀ fs i od r v o, flatten_dirE (fun _ => false) fs i od r v o =
      Except.ok (flatten_dir fs i od r v o)) ∧
    (∀ fs paths od r v o (hr : 0 ≤ r),
      flattenLoopE (fun _ => false) fs paths od r hr v o =
        Except.ok (flattenLoop fs paths od r hr v o)) := by
  have H := flatten_induct
    (fun fs i od r v o => flatten_dirE (fun _ => false) fs i od r v o =
      Except.ok (flatten_dir fs i od r v o))
    (fun fs paths od r v o => ∀ hr : 0 ≤ r,
      flattenLoopE (fun _ => false) fs paths od r hr v o =
        Except.ok (flattenLoop fs paths od r hr v o))
    ?base ?step ?lnil ?lcons
  · exact ⟨H.1, fun fs paths od r v o hr => H.2 fs paths od r v o hr hr⟩
  case base =>
    intro fs i od r v o h
    rw [flatten_dirE_stop h, flatten_dir_stop h]
  case step =>
    intro fs i od r v o h1 h2 hP
    rw [flatten_dirE_go h1 h2 (Int.not_lt.mp h1),
      flatten_dir_go h1 h2 (Int.not_lt.mp h1)]
    exact hP (Int.not_lt.mp h1)
  case lnil =>
    intro fs od r v o hr hr2
    rw [flattenLoopE_nil, flattenLoop_nil]
  case lcons =>
    intro fs p rest od r v o hr ihd ihl hr2
    cases hd : isDirFS fs p with
    | true =>
      rw [flattenLoopE_cons_dir_ok hd (ihd fs p),
        ihl (flatten_dir fs p od (r - 1) v o).fs hr2,
        flattenLoop_cons_dir hd]
      rfl
    | false =>
      cases hf : isFileFS fs p with
      | false =>
        rw [flattenLoopE_cons_other hd hf, flattenLoop_cons_other hd hf]
        exact ihl fs hr2
      | true =>
        cases hex : (existsFS fs (od ++ [lastName p]) && !o) with
        | true =>
          rw [flattenLoopE_cons_skip_ok hd hf hex (ihl fs hr2),
            flattenLoop_cons_skip hd hf hex]
          simp [seqRes]
        | false =>
          rw [flattenLoopE_cons_copy_ok hd hf hex rfl
            (ihl (setFile fs (od ++ [lastName p]) (contentOf fs p)) hr2),
            flattenLoop_cons_copy hd hf hex]
          simp [seqRes, List.cons_append, List.append_assoc]

/-! With `overwrite = true` and the destination outside the scanned tree,
a failing copy of any reachable file makes the whole traversal return an
error, and if no reachable file fails, the traversal returns exactly the
plain result. -/

theorem flatten_dirE_aborts (failing : FPath → Bool) :
    (∀ fsB i od r v, ∀ fs, Ag od fs fsB → od ∉ reachDirs fs i r →
      ((∃ p ∈ reachFiles fs i r, failing p = true) →
        ∃ e, flatten_dirE failing fsB i od r v true = Except.error e) ∧
      ((∀ p ∈ reachFiles fs i r, failing p = false) →
        flatten_dirE failing fsB i od r v true =
          Except.ok (flatten_dir fsB i od r v true))) ∧
    (∀ fsB paths od r v (hr : 0 ≤ r), ∀ fs, Ag od fs fsB →
      (∀ p ∈ paths, p.dropLast ≠ od) →
      od ∉ reachDirsLoop fs paths r hr →
      ((∃ p ∈ reachFilesLoop fs paths r hr, failing p = true) →
        ∃ e, flattenLoopE failing fsB paths od r hr v true =
          Except.error e) ∧
      ((∀ p ∈ reachFilesLoop fs paths r hr, failing p = false) →
        flattenLoopE failing fsB paths od r hr v true =
          Except.ok (flattenLoop fsB paths od r hr v true))) := by
  have H := flatten_induct
    (fun fsB i od r v o => o = true → ∀ fs, Ag od fs fsB →
      od ∉ reachDirs fs i r →
      ((∃ p ∈ reachFiles fs i r, failing p = true) →
        ∃ e, flatten_dirE failing fsB i od r v o = Except.error e) ∧
      ((∀ p ∈ reachFiles fs i r, failing p = false) →
        flatten_dirE failing fsB i od r v o =
          Except.ok (flatten_dir fsB i od r v o)))
    (fun fsB paths od r v o => o = true → ∀ (hr : 0 ≤ r) fs, Ag od fs fsB →
      (∀ p ∈ paths, p.dropLast ≠ od) →
      od ∉ reachDirsLoop fs paths r hr →
      ((∃ p ∈ reachFilesLoop fs paths r hr, failing p = true) →
        ∃ e, flattenLoopE failing fsB paths od r hr v o = Except.error e) ∧
      ((∀ p ∈ reachFilesLoop fs paths r hr, failing p = false) →
        flattenLoopE failing fsB paths od r hr v o =
          Except.ok (flattenLoop fsB paths od r hr v o)))
    ?base ?step ?lnil ?lcons
  · exact ⟨fun fsB i od r v => H.1 fsB i od r v true rfl,
      fun fsB paths od r v hr => H.2 fsB paths od r v true hr rfl hr⟩
  case base =>
    intro fsB i od r v o h ho fs hag hdisj
    by_cases hlt : r < 0
    · rw [reachFiles_stop hlt]
      constructor
      · rintro ⟨q, hq, _⟩
        exact absurd hq (List.not_mem_nil q)
      · intro _
        rw [flatten_dirE_stop (Or.inl hlt), flatten_dir_stop (Or.inl hlt)]
    · rcases h with hlt2 | heq
      · exact absurd hlt2 hlt
      · exfalso
        apply hdisj
        subst heq
        rw [reachDirs_go hlt (Int.not_lt.mp hlt)]
        exact List.mem_cons_self _ _
  case step =>
    intro fsB i od r v o h1 h2 hP ho fs hag hdisj
    have hr := Int.not_lt.mp h1
    have hiter : iterdir fsB i = iterdir fs i := hag.1 i h2
    rw [reachDirs_go h1 hr] at hdisj
    simp only [List.mem_cons, not_or] at hdisj
    rw [flatten_dirE_go h1 h2 hr, flatten_dir_go h1 h2 hr, reachFiles_go h1 hr,
      hiter]
    rw [hiter] at hP
    exact hP ho hr fs hag
      (fun p hp => by rw [(mem_iterdir hp).1]; exact h2) hdisj.2
  case lnil =>
    intro fsB od r v o hr ho hr2 fs hag hp hdisj
    rw [reachFilesLoop_nil]
    constructor
    · rintro ⟨q, hq, _⟩
      exact absurd hq (List.not_mem_nil q)
    · intro _
      rw [flattenLoopE_nil, flattenLoop_nil]
  case lcons =>
    intro fsB p rest od r v o hr ihd ihl ho hr2 fs hag hp hdisj
    subst ho
    have hpd : p.dropLast ≠ od := hp p (List.mem_cons_self p rest)
    have hlook : lookupFS fsB p = lookupFS fs p := hag.2 p hpd
    have hprest : ∀ q ∈ rest, q.dropLast ≠ od :=
      fun q hq => hp q (List.mem_cons_of_mem p hq)
    rw [reachDirsLoop_cons] at hdisj
    simp only [List.mem_append, not_or] at hdisj
    obtain ⟨hdsub, hdrest⟩ := hdisj
    rw [reachFilesLoop_cons]
    cases hd : isDirFS fsB p with
    | true =>
      have hd2 : isDirFS fs p = true := by
        rw [← isDirFS_congr hlook]
        exact hd
      rw [if_pos hd2] at hdsub
      rw [if_pos hd2]
      obtain ⟨abortSub, okSub⟩ := ihd fsB p rfl fs hag hdsub
      have hagSub : Ag od fs (flatten_dir fsB p od (r - 1) v true).fs :=
        ag_flatten_dir hag p (r - 1) v true
      obtain ⟨abortRest, okRest⟩ :=
        ihl (flatten_dir fsB p od (r - 1) v true).fs rfl hr2 fs hagSub
          hprest hdrest
      constructor
      · rintro ⟨q, hq, hfq⟩
        rcases List.mem_append.mp hq with hq | hq
        · obtain ⟨e, he⟩ := abortSub ⟨q, hq, hfq⟩
          exact ⟨e, flattenLoopE_cons_dir_err hd he⟩
        · by_cases hsub : ∃ p' ∈ reachFiles fs p (r - 1), failing p' = true
          · obtain ⟨e, he⟩ := abortSub hsub
            exact ⟨e, flattenLoopE_cons_dir_err hd he⟩
          · push_neg at hsub
            have hok : ∀ p' ∈ reachFiles fs p (r - 1), failing p' = false :=
              fun p' hp' => by
                have := hsub p' hp'
                cases hb : failing p' with
                | false => rfl
                | true => exact absurd hb this
            obtain ⟨e, he⟩ := abortRest ⟨q, hq, hfq⟩
            refine ⟨e, ?_⟩
            rw [flattenLoopE_cons_dir_ok hd (okSub hok), he]
      · intro hall
        have hallSub : ∀ q ∈ reachFiles fs p (r - 1), failing q = false :=
          fun q hq => hall q (List.mem_append.mpr (Or.inl hq))
        have hallRest : ∀ q ∈ reachFilesLoop fs rest r hr2,
            failing q = false :=
          fun q hq => hall q (List.mem_append.mpr (Or.inr hq))
        rw [flattenLoopE_cons_dir_ok hd (okSub hallSub), okRest hallRest,
          flattenLoop_cons_dir hd]
        rfl
    | false =>
      have hd2 : isDirFS fs p = false := by
        rw [← isDirFS_congr hlook]
        exact hd
      cases hf : isFileFS fsB p with
      | false =>
        have hf2 : isFileFS fs p = false := by
          rw [← isFileFS_congr hlook]
          exact hf
        rw [flattenLoopE_cons_other hd hf, flattenLoop_cons_other hd hf,
          if_neg (by simp [hd2]), if_neg (by simp [hf2]), List.nil_append]
        exact ihl fsB rfl hr2 fs hag hprest hdrest
      | true =>
        have hf2 : isFileFS fs p = true := by
          rw [← isFileFS_congr hlook]
          exact hf
        rw [if_neg (by simp [hd2]), if_pos hf2, List.singleton_append]
        have hex : (existsFS fsB (od ++ [lastName p]) && !true) = false := by
          simp
        have hagR : Ag od fs
            (setFile fsB (od ++ [lastName p]) (contentOf fsB p)) := by
          have := ag_applyCopies hag
            [(od ++ [lastName p], contentOf fsB p)]
            (by intro op hop; rcases List.mem_singleton.mp hop with rfl
                simpa)
          simpa [applyCopies] using this
        obtain ⟨abortRest, okRest⟩ :=
          ihl (setFile fsB (od ++ [lastName p]) (contentOf fsB p)) rfl hr2 fs
            hagR hprest hdrest
        constructor
        · rintro ⟨q, hq, hfq⟩
          by_cases hfp : failing p = true
          · exact ⟨p, flattenLoopE_cons_fail hd hf hex hfp⟩
          · have hfp2 : failing p = false := by
              cases hb : failing p with
              | false => rfl
              | true => exact absurd hb hfp
            rcases List.mem_cons.mp hq with rfl | hq2
            · exact absurd hfq hfp
            · obtain ⟨e, he⟩ := abortRest ⟨q, hq2, hfq⟩
              exact ⟨e, flattenLoopE_cons_copy_err hd hf hex hfp2 he⟩
        · intro hall
          have hfp : failing p = false := hall p (List.mem_cons_self p _)
          have hallRest : ∀ q ∈ reachFilesLoop fs rest r hr2,
              failing q = false :=
            fun q hq => hall q (List.mem_cons_of_mem p hq)
          rw [flattenLoopE_cons_copy_ok hd hf hex hfp (okRest hallRest),
            flattenLoop_cons_copy hd hf hex]
          simp [seqRes, List.cons_append, List.append_assoc]

/-! Every visited file and every copy source lies outside the destination
directory: sources are children of scanned directories, and the scan never
enters the destination. -/

theorem flatten_src_parent_all :
    (∀ fs i od r v o,
      (∀ p ∈ visitedOf (flatten_dir fs i od r v o).trace,
        p.dropLast ≠ od) ∧
      (∀ x ∈ copiedOf (flatten_dir fs i od r v o).trace,
        (x.1).dropLast ≠ od)) ∧
    (∀ fs paths od r v o (hr : 0 ≤ r), (∀ p ∈ paths, p.dropLast ≠ od) →
      (∀ p ∈ visitedOf (flattenLoop fs paths od r hr v o).trace,
        p.dropLast ≠ od) ∧
      (∀ x ∈ copiedOf (flattenLoop fs paths od r hr v o).trace,
        (x.1).dropLast ≠ od)) := by
  have H := flatten_induct
    (fun fs i od r v o =>
      (∀ p ∈ visitedOf (flatten_dir fs i od r v o).trace,
        p.dropLast ≠ od) ∧
      (∀ x ∈ copiedOf (flatten_dir fs i od r v o).trace,
        (x.1).dropLast ≠ od))
    (fun fs paths od r v o => ∀ (hr : 0 ≤ r),
      (∀ p ∈ paths, p.dropLast ≠ od) →
      (∀ p ∈ visitedOf (flattenLoop fs paths od r hr v o).trace,
        p.dropLast ≠ od) ∧
      (∀ x ∈ copiedOf (flattenLoop fs paths od r hr v o).trace,
        (x.1).dropLast ≠ od))
    ?base ?step ?lnil ?lcons
  · exact ⟨H.1, fun fs paths od r v o hr hp => H.2 fs paths od r v o hr hr hp⟩
  case base =>
    intro fs i od r v o h
    rw [flatten_dir_stop h]
    simp
  case step =>
    intro fs i od r v o h1 h2 hP
    rw [flatten_dir_go h1 h2 (Int.not_lt.mp h1)]
    refine hP (Int.not_lt.mp h1) ?_
    intro p hp
    rw [(mem_iterdir hp).1]
    exact h2
  case lnil =>
    intro fs od r v o hr hr2 hp
    rw [flattenLoop_nil]
    simp
  case lcons =>
    intro fs p rest od r v o hr ihd ihl hr2 hp
    have hpd : p.dropLast ≠ od := hp p (List.mem_cons_self p rest)
    have hprest : ∀ q ∈ rest, q.dropLast ≠ od :=
      fun q hq => hp q (List.mem_cons_of_mem p hq)
    cases hd : isDirFS fs p with
    | true =>
      rw [flattenLoop_cons_dir hd]
      obtain ⟨s1, s2⟩ := ihd fs p
      obtain ⟨l1, l2⟩ :=
        ihl (flatten_dir fs p od (r - 1) v o).fs hr2 hprest
      constructor
      · simp only [seqRes_trace, visitedOf_append]
        intro q hq
        rcases List.mem_append.mp hq with h | h
        · exact s1 q h
        · exact l1 q h
      · simp only [seqRes_trace, copiedOf_append]
        intro x hx
        rcases List.mem_append.mp hx with h | h
        · exact s2 x h
        · exact l2 x h
    | false =>
      cases hf : isFileFS fs p with
      | false =>
        rw [flattenLoop_cons_other hd hf]
        exact ihl fs hr2 hprest
      | true =>
        cases hex : (existsFS fs (od ++ [lastName p]) && !o) with
        | true =>
          rw [flattenLoop_cons_skip hd hf hex]
          obtain ⟨l1, l2⟩ := ihl fs hr2 hprest
          constructor
          · simp only [seqRes_trace, List.singleton_append,
              visitedOf_visited_cons]
            intro q hq
            rcases List.mem_cons.mp hq with rfl | hq2
            · exact hpd
            · exact l1 q hq2
          · simpa only [seqRes_trace, List.singleton_append,
              copiedOf_visited_cons] using l2
        | false =>
          rw [flattenLoop_cons_copy hd hf hex]
          obtain ⟨l1, l2⟩ :=
            ihl (setFile fs (od ++ [lastName p]) (contentOf fs p)) hr2 hprest
          constructor
          · simp only [seqRes_trace, List.cons_append, List.append_assoc,
              List.singleton_append, List.nil_append, visitedOf_visited_cons]
            simp only [visitedOf_printed_opt]
            simp only [visitedOf_copied_cons]
            intro q hq
            rcases List.mem_cons.mp hq with rfl | hq2
            · exact hpd
            · exact l1 q hq2
          · simp only [seqRes_trace, List.cons_append, List.append_assoc,
              List.singleton_append, List.nil_append, copiedOf_visited_cons]
            simp only [copiedOf_printed_opt]
            simp only [copiedOf_copied_cons]
            intro x hx
            rcases List.mem_cons.mp hx with rfl | hx2
            · exact hpd
            · exact l2 x hx2

/-! Helpers for reading the final filesystem at a copied name. -/

theorem lastWriteOf_map_mem (l : List FPath) (key : FPath → FPath)
    (val : FPath → List Nat) (x : FPath) (c : List Nat)
    (h : lastWriteOf (l.map (fun q => (key q, val q))) x = some c) :
    ∃ q ∈ l, key q = x ∧ val q = c := by
  induction l with
  | nil => simp [lastWriteOf] at h
  | cons a t ih =>
    simp only [List.map_cons, lastWriteOf] at h
    cases h2 : lastWriteOf (t.map (fun q => (key q, val q))) x with
    | some c2 =>
      rw [h2] at h
      have hc : c2 = c := Option.some.inj h
      subst hc
      obtain ⟨q, hq, hk, hv⟩ := ih h2
      exact ⟨q, List.mem_cons_of_mem a hq, hk, hv⟩
    | none =>
      rw [h2] at h
      by_cases hk : key a = x
      · rw [if_pos hk] at h
        exact ⟨a, List.mem_cons_self a t, hk, Option.some.inj h⟩
      · rw [if_neg hk] at h
        exact absurd h (by simp)

theorem take_sum_mono (l : List Nat) (n : Nat) :
    (l.take n).sum ≤ (l.take (n + 1)).sum := by
  have h1 : l.take n = (l.take (n + 1)).take n := by
    rw [List.take_take]
    congr 1
    omega
  rw [h1]
  exact sublist_sum_le (List.take_sublist n (l.take (n + 1)))

theorem lastWriteOf_map_eq (l : List FPath) (key : FPath → FPath)
    (val : FPath → List Nat) (p : FPath) (hp : p ∈ l)
    (hsame : ∀ q ∈ l, key q = key p → val q = val p) :
    lastWriteOf (l.map (fun q => (key q, val q))) (key p) = some (val p) := by
  cases h : lastWriteOf (l.map (fun q => (key q, val q))) (key p) with
  | some c =>
    obtain ⟨q, hq, hk, hv⟩ := lastWriteOf_map_mem l key val (key p) c h
    rw [← hv, hsame q hq hk]
  | none =>
    exfalso
    have := (lastWriteOf_eq_none_iff _ _).mp h
    apply this
    rw [List.map_map]
    exact List.mem_map_of_mem _ hp

/-! The claims. -/

/-- Claim C3: calling `flatten_dir` with `sourceDir` equal to `destDir`
returns `(0, 0)` immediately, performs no copy, no print, no visit and no
recursion, and leaves the filesystem unchanged, for every `maxDepth` and
every verbose/overwrite combination. -/
theorem c3_self_copy_guard (fs : FS) (d : FPath) (r : Int) (v o : Bool) :
    flatten_dir fs d d r v o = ⟨fs, 0, 0, []⟩ :=
  flatten_dir_stop (Or.inr rfl)

/-- Claim C4: the returned `filesCopied` equals the number of copies
performed, `bytesCopied` equals the sum of the sizes observed at copy time
of exactly the files actually copied, and the running byte total (the sum
over any prefix of the copies) only ever increases along the traversal;
both counters start from the empty trace at 0 and are natural numbers,
hence nonnegative. -/
theorem c4_counter_invariant (fs : FS) (indir outdir : FPath) (r : Int)
    (v o : Bool) :
    (flatten_dir fs indir outdir r v o).nFiles =
      (copiedOf (flatten_dir fs indir outdir r v o).trace).length ∧
    (flatten_dir fs indir outdir r v o).nBytes =
      ((copiedOf (flatten_dir fs indir outdir r v o).trace).map
        (fun x => x.2.2.2)).sum ∧
    (∀ n : Nat,
      (((copiedOf (flatten_dir fs indir outdir r v o).trace).map
        (fun x => x.2.2.2)).take n).sum ≤
      (((copiedOf (flatten_dir fs indir outdir r v o).trace).map
        (fun x => x.2.2.2)).take (n + 1)).sum) := by
  refine ⟨(flatten_counts_all.1 fs indir outdir r v o).1,
    (flatten_counts_all.1 fs indir outdir r v o).2, ?_⟩
  intro n
  exact take_sum_mono _ n

/-- Claim C6: running `flatten_dir` twice with `overwrite = true` and the
same arguments yields the same destination contents after each run (the
final filesystems agree pointwise) and the same `filesCopied` and
`bytesCopied` totals from each run. -/
theorem c6_idempotent_overwrite (fs : FS) (indir outdir : FPath) (r : Int)
    (v : Bool) :
    (∀ p, lookupFS (flatten_dir (flatten_dir fs indir outdir r v true).fs
        indir outdir r v true).fs p =
      lookupFS (flatten_dir fs indir outdir r v true).fs p) ∧
    (flatten_dir (flatten_dir fs indir outdir r v true).fs
        indir outdir r v true).nFiles =
      (flatten_dir fs indir outdir r v true).nFiles ∧
    (flatten_dir (flatten_dir fs indir outdir r v true).fs
        indir outdir r v true).nBytes =
      (flatten_dir fs indir outdir r v true).nBytes := by
  have hag : Ag outdir fs (flatten_dir fs indir outdir r v true).fs :=
    ag_flatten_dir (ag_refl outdir fs) indir r v true
  obtain ⟨ht, hn, hb⟩ :=
    flatten_lockstep_all.1 (flatten_dir fs indir outdir r v true).fs indir
      outdir r v fs hag
  refine ⟨?_, hn, hb⟩
  intro p
  rw [flatten_dir_fs_applyCopies (flatten_dir fs indir outdir r v true).fs
    indir outdir r v true, ht]
  rw [lookupFS_applyCopies]
  cases hw : lastWriteOf (copyOps (flatten_dir fs indir outdir r v
      true).trace) p with
  | some c =>
    rw [flatten_dir_fs_applyCopies fs indir outdir r v true,
      lookupFS_applyCopies, hw]
  | none => rfl

/-- Claim C8: two runs differing only in the verbose flag produce the same
final filesystem, the same `(filesCopied, bytesCopied)` return value, and
the same copies; with verbose on, exactly one line is printed per file
actually copied, naming the copy's destination path, and with verbose off
nothing is printed. -/
theorem c8_verbose_noninterference (fs : FS) (indir outdir : FPath)
    (r : Int) (o v1 v2 : Bool) :
    (flatten_dir fs indir outdir r v1 o).fs =
      (flatten_dir fs indir outdir r v2 o).fs ∧
    (flatten_dir fs indir outdir r v1 o).nFiles =
      (flatten_dir fs indir outdir r v2 o).nFiles ∧
    (flatten_dir fs indir outdir r v1 o).nBytes =
      (flatten_dir fs indir outdir r v2 o).nBytes ∧
    copiedOf (flatten_dir fs indir outdir r v1 o).trace =
      copiedOf (flatten_dir fs indir outdir r v2 o).trace ∧
    printedOf (flatten_dir fs indir outdir r true o).trace =
      (copiedOf (flatten_dir fs indir outdir r true o).trace).map
        (fun x => x.2.1) ∧
    printedOf (flatten_dir fs indir outdir r false o).trace = [] := by
  obtain ⟨a1, a2, a3, a4, a5, a6⟩ :=
    flatten_verbose_all.1 fs indir outdir r v1 o
  obtain ⟨b1, b2, b3, b4, b5, b6⟩ :=
    flatten_verbose_all.1 fs indir outdir r v2 o
  obtain ⟨t1, t2, t3, t4, t5, t6⟩ :=
    flatten_verbose_all.1 fs indir outdir r true o
  obtain ⟨f1, f2, f3, f4, f5, f6⟩ :=
    flatten_verbose_all.1 fs indir outdir r false o
  refine ⟨a1.trans b1.symm, a2.trans b2.symm, a3.trans b3.symm,
    a4.trans b4.symm, ?_, ?_⟩
  · simpa using t6
  · simpa using f6

/-- Claim C9: frame condition — the traversal never writes outside the
direct children of the destination directory (so the source tree is only
read), every copy destination is a direct child of the destination
directory, no existing entry is ever deleted, and every entry whose path is
the destination of no performed copy is left byte-for-byte unchanged. -/
theorem c9_frame_condition (fs : FS) (indir outdir : FPath) (r : Int)
    (v o : Bool) :
    (∀ q, q.dropLast ≠ outdir →
      lookupFS (flatten_dir fs indir outdir r v o).fs q = lookupFS fs q) ∧
    (∀ x ∈ copiedOf (flatten_dir fs indir outdir r v o).trace,
      (x.2.1).dropLast = outdir) ∧
    (∀ q, (lookupFS fs q).isSome = true →
      (lookupFS (flatten_dir fs indir outdir r v o).fs q).isSome = true) ∧
    (∀ q, (∀ x ∈ copiedOf (flatten_dir fs indir outdir r v o).trace,
        x.2.1 ≠ q) →
      lookupFS (flatten_dir fs indir outdir r v o).fs q = lookupFS fs q) := by
  have hdst := flatten_dir_copied_dst fs indir outdir r v o
  have hops : ∀ op ∈ copyOps (flatten_dir fs indir outdir r v o).trace,
      (op.1).dropLast = outdir := copyOps_dst hdst
  refine ⟨?_, hdst, ?_, ?_⟩
  · intro q hq
    rw [flatten_dir_fs_applyCopies]
    exact lookupFS_applyCopies_of_not_mem (not_mem_copyKeys hops hq) fs
  · intro q hq
    rw [flatten_dir_fs_applyCopies, lookupFS_applyCopies]
    cases hw : lastWriteOf
        (copyOps (flatten_dir fs indir outdir r v o).trace) q with
    | some c => simp
    | none => exact hq
  · intro q hq
    rw [flatten_dir_fs_applyCopies]
    apply lookupFS_applyCopies_of_not_mem
    intro hmem
    obtain ⟨op, hop, heq⟩ := List.mem_map.mp hmem
    obtain ⟨x, hx, rfl⟩ := List.mem_map.mp hop
    exact hq x hx heq

/-- Claim C10: the self-copy guard applies at every recursion level — no
visited file and no copy source is a direct child of the destination
directory (so files copied into it are never re-used as sources), every
copy destination is, and a recursive call on the destination directory
itself returns `(0, 0)` without visiting or copying anything. -/
theorem c10_guard_every_level (fs : FS) (indir outdir : FPath) (r : Int)
    (v o : Bool) :
    (∀ p ∈ visitedOf (flatten_dir fs indir outdir r v o).trace,
      p.dropLast ≠ outdir) ∧
    (∀ x ∈ copiedOf (flatten_dir fs indir outdir r v o).trace,
      (x.1).dropLast ≠ outdir ∧ (x.2.1).dropLast = outdir) ∧
    flatten_dir fs outdir outdir r v o = ⟨fs, 0, 0, []⟩ := by
  obtain ⟨h1, h2⟩ := flatten_src_parent_all.1 fs indir outdir r v o
  exact ⟨h1,
    fun x hx => ⟨h2 x hx, flatten_dir_copied_dst fs indir outdir r v o x hx⟩,
    flatten_dir_stop (Or.inr rfl)⟩

/-- Claim C1: with the destination directory distinct from every directory
of the scanned tree, a plain file at nesting depth `k` below the source
directory is visited exactly once if `k ≤ maxDepth` and never otherwise;
absent name collisions (or with overwrite on) every visited file is copied;
and a call with `maxDepth < 0` does nothing and returns `(0, 0)`. -/
theorem c1_depth_semantics (fs : FS) (indir outdir : FPath) (r : Int)
    (v o : Bool) (hkeys : (fs.map Prod.fst).Nodup)
    (hdisj : outdir ∉ reachDirs fs indir r) :
    (∀ p, p ∈ visitedOf (flatten_dir fs indir outdir r v o).trace ↔
      ∃ k : Nat, (k : Int) ≤ r ∧ p ∈ filesAtDepth fs indir k) ∧
    (visitedOf (flatten_dir fs indir outdir r v o).trace).Nodup ∧
    ((o = true ∨ (((reachFiles fs indir r).map lastName).Nodup ∧
        ∀ p ∈ reachFiles fs indir r,
          existsFS fs (outdir ++ [lastName p]) = false)) →
      (copiedOf (flatten_dir fs indir outdir r v o).trace).map
          (fun x => x.1) =
        visitedOf (flatten_dir fs indir outdir r v o).trace) ∧
    (r < 0 → flatten_dir fs indir outdir r v o = ⟨fs, 0, 0, []⟩) := by
  obtain ⟨hv, hc, hf⟩ :=
    flatten_master_all.1 fs indir outdir r v o fs (ag_refl outdir fs) hdisj
  refine ⟨?_, ?_, ?_, fun hlt => flatten_dir_stop (Or.inl hlt)⟩
  · intro p
    rw [hv]
    exact reachFiles_mem_iff fs indir r p
  · rw [hv]
    exact reachFiles_nodup_all.1 fs indir r hkeys
  · intro hcase
    have hcs : specCopied o (reachFiles fs indir r) (existNames fs outdir) =
        reachFiles fs indir r := by
      rcases hcase with rfl | ⟨hnd, hfresh⟩
      · exact specCopied_of_true _ _
      · exact specCopied_of_fresh o _ _ hnd hfresh
    rw [hc, hv, hcs, List.map_map]
    show List.map (fun p => p) (reachFiles fs indir r) = reachFiles fs indir r
    simp

/-- Claim C2: a file whose target path already exists in the destination is
silently skipped when overwrite is off — the destination entry's bytes are
preserved, it is never the destination of a copy (so not counted) and never
printed; with overwrite on, every plain file directly in the source
directory is copied unconditionally with its content and size, and (when
the destination is outside the tree and its name is unique among reachable
files) the destination entry's bytes become the source file's bytes. -/
theorem c2_collision_policy (fs : FS) (indir outdir : FPath) (r : Int)
    (v : Bool) :
    (∀ q, existsFS fs q = true →
      lookupFS (flatten_dir fs indir outdir r v false).fs q =
        lookupFS fs q ∧
      (∀ x ∈ copiedOf (flatten_dir fs indir outdir r v false).trace,
        x.2.1 ≠ q) ∧
      (∀ d ∈ printedOf (flatten_dir fs indir outdir r v false).trace,
        d ≠ q)) ∧
    (0 ≤ r → indir ≠ outdir →
      ∀ p ∈ iterdir fs indir, isFileFS fs p = true →
        (p, outdir ++ [lastName p], contentOf fs p, statSize fs p) ∈
          copiedOf (flatten_dir fs indir outdir r v true).trace) ∧
    (outdir ∉ reachDirs fs indir r →
      ∀ p ∈ reachFiles fs indir r,
        (∀ q ∈ reachFiles fs indir r, lastName q = lastName p → q = p) →
        lookupFS (flatten_dir fs indir outdir r v true).fs
          (outdir ++ [lastName p]) =
          some (Entry.file (contentOf fs p))) := by
  refine ⟨?_, ?_, ?_⟩
  · exact flatten_skip_protect_all.1 fs indir outdir r v
  · intro hr hne p hp hfile
    rw [flatten_dir_go (by omega) hne hr]
    refine flattenLoop_copies_file (iterdir fs indir) fs fs outdir r hr v
      (ag_refl outdir fs) ?_ p hp hfile
    intro q hq
    rw [(mem_iterdir hq).1]
    exact hne
  · intro hdisj p hp huniq
    obtain ⟨hv, hc, hf⟩ :=
      flatten_master_all.1 fs indir outdir r v true fs (ag_refl outdir fs)
        hdisj
    rw [hf, specCopied_of_true, lookupFS_applyCopies]
    have heq : lastWriteOf ((reachFiles fs indir r).map
        (copyOp fs outdir)) (outdir ++ [lastName p]) =
        some (contentOf fs p) := by
      have hsame : ∀ q ∈ reachFiles fs indir r,
          outdir ++ [lastName q] = outdir ++ [lastName p] →
          contentOf fs q = contentOf fs p := by
        intro q hq hkey
        have h2 := List.append_cancel_left hkey
        have h3 : lastName q = lastName p :=
          (List.cons.injEq _ _ _ _ ▸ h2).1
        rw [huniq q hq h3]
      exact lastWriteOf_map_eq (reachFiles fs indir r)
        (fun q => outdir ++ [lastName q]) (fun q => contentOf fs q) p hp hsame
    rw [heq]

/-- Claim C5: an I/O failure while copying a file is not caught, retried or
skipped — the traversal aborts with the error and no partial counters are
returned — while in the absence of failures the fallible traversal returns
exactly the plain traversal's full result. -/
theorem c5_error_aborts (failing : FPath → Bool) (fs : FS)
    (indir outdir : FPath) (r : Int) (v : Bool)
    (hdisj : outdir ∉ reachDirs fs indir r)
    (hfail : ∃ p ∈ reachFiles fs indir r, failing p = true) :
    (∃ e, flatten_dirE failing fs indir outdir r v true = Except.error e) ∧
    (∀ fs2 i2 od2 r2 v2 o2,
      flatten_dirE (fun _ => false) fs2 i2 od2 r2 v2 o2 =
        Except.ok (flatten_dir fs2 i2 od2 r2 v2 o2)) :=
  ⟨((flatten_dirE_aborts failing).1 fs indir outdir r v fs
      (ag_refl outdir fs) hdisj).1 hfail,
    fun fs2 i2 od2 r2 v2 o2 => flatten_dirE_refines.1 fs2 i2 od2 r2 v2 o2⟩

/-- Claim C7: the returned counters never exceed the number and total size
of the files reachable within the recursion budget, and they equal those
totals exactly when no name collisions occur (no two reachable files share
a name and no reachable file's target already exists), or unconditionally
with overwrite on. -/
theorem c7_monotone_counts (fs : FS) (indir outdir : FPath) (r : Int)
    (v o : Bool) :
    (flatten_dir fs indir outdir r v o).nFiles ≤
      (reachFiles fs indir r).length ∧
    (flatten_dir fs indir outdir r v o).nBytes ≤
      ((reachFiles fs indir r).map (statSize fs)).sum ∧
    (outdir ∉ reachDirs fs indir r →
      (o = true ∨ (((reachFiles fs indir r).map lastName).Nodup ∧
        ∀ p ∈ reachFiles fs indir r,
          existsFS fs (outdir ++ [lastName p]) = false)) →
      (flatten_dir fs indir outdir r v o).nFiles =
        (reachFiles fs indir r).length ∧
      (flatten_dir fs indir outdir r v o).nBytes =
        ((reachFiles fs indir r).map (statSize fs)).sum) := by
  have h1 := flatten_counts_all.1 fs indir outdir r v o
  obtain ⟨hsubV, hsubP⟩ :=
    flatten_sublist_all.1 fs indir outdir r v o fs (ag_refl outdir fs)
  refine ⟨?_, ?_, ?_⟩
  · rw [h1.1]
    have h2 := hsubP.length_le
    simpa using h2
  · rw [h1.2]
    have h2 := sublist_sum_le (hsubP.map Prod.snd)
    simpa [List.map_map, Function.comp] using h2
  · intro hdisj hcase
    obtain ⟨hv, hc, hf⟩ :=
      flatten_master_all.1 fs indir outdir r v o fs (ag_refl outdir fs) hdisj
    have hcs : specCopied o (reachFiles fs indir r) (existNames fs outdir) =
        reachFiles fs indir r := by
      rcases hcase with rfl | ⟨hnd, hfresh⟩
      · exact specCopied_of_true _ _
      · exact specCopied_of_fresh o _ _ hnd hfresh
    constructor
    · rw [h1.1, hc, hcs, List.length_map]
    · rw [h1.2, hc, hcs, List.map_map]
      rfl

/-! Concrete example filesystems used by the witnesses. -/

/-- A source tree with a file at depth 0, a subdirectory with a file at
depth 1, and an empty destination directory. -/
def fsA : FS :=
  [(["s"], Entry.dir), (["s", "a"], Entry.file [0, 1, 2]),
   (["s", "t"], Entry.dir), (["s", "t", "b"], Entry.file [3, 4]),
   (["d"], Entry.dir)]

/-- A source tree whose single file collides with a pre-existing file in
the destination directory. -/
def fsB0 : FS :=
  [(["s"], Entry.dir), (["s", "a"], Entry.file [1, 2]),
   (["d"], Entry.dir), (["d", "a"], Entry.file [9])]

/-- A failure oracle that fails the copy of the source file `s/a`. -/
def failA : FPath → Bool := fun p => p == ["s", "a"]

theorem c1_depth_semantics_witness :
    (∀ p, p ∈ visitedOf (flatten_dir fsA ["s"] ["d"] 1 false false).trace ↔
      ∃ k : Nat, (k : Int) ≤ 1 ∧ p ∈ filesAtDepth fsA ["s"] k) ∧
    (visitedOf (flatten_dir fsA ["s"] ["d"] 1 false false).trace).Nodup ∧
    ((false = true ∨ (((reachFiles fsA ["s"] 1).map lastName).Nodup ∧
        ∀ p ∈ reachFiles fsA ["s"] 1,
          existsFS fsA (["d"] ++ [lastName p]) = false)) →
      (copiedOf (flatten_dir fsA ["s"] ["d"] 1 false false).trace).map
          (fun x => x.1) =
        visitedOf (flatten_dir fsA ["s"] ["d"] 1 false false).trace) ∧
    ((1 : Int) < 0 →
      flatten_dir fsA ["s"] ["d"] 1 false false = ⟨fsA, 0, 0, []⟩) :=
  c1_depth_semantics fsA ["s"] ["d"] 1 false false (by decide)
    (by simp [reachDirs, reachDirsLoop, iterdir, childOf, isDirFS, lookupFS,
      fsA])

theorem c2_collision_policy_witness :
    (lookupFS (flatten_dir fsB0 ["s"] ["d"] 0 false false).fs ["d", "a"] =
        lookupFS fsB0 ["d", "a"] ∧
      (∀ x ∈ copiedOf (flatten_dir fsB0 ["s"] ["d"] 0 false false).trace,
        x.2.1 ≠ ["d", "a"]) ∧
      (∀ d ∈ printedOf (flatten_dir fsB0 ["s"] ["d"] 0 false false).trace,
        d ≠ ["d", "a"])) ∧
    ((["s", "a"], ["d"] ++ [lastName ["s", "a"]], contentOf fsB0 ["s", "a"],
        statSize fsB0 ["s", "a"]) ∈
      copiedOf (flatten_dir fsB0 ["s"] ["d"] 0 false true).trace) ∧
    (lookupFS (flatten_dir fsB0 ["s"] ["d"] 0 false true).fs
        (["d"] ++ [lastName ["s", "a"]]) =
      some (Entry.file (contentOf fsB0 ["s", "a"]))) := by
  have h := c2_collision_policy fsB0 ["s"] ["d"] 0 false
  refine ⟨h.1 ["d", "a"] (by decide), ?_, ?_⟩
  · exact h.2.1 (by decide) (by decide) ["s", "a"] (by decide) (by decide)
  · have hr : reachFiles fsB0 ["s"] 0 = [["s", "a"]] := by
      simp [reachFiles, reachFilesLoop, iterdir, childOf, isDirFS, isFileFS,
        lookupFS, fsB0]
    refine h.2.2 ?_ ["s", "a"] ?_ ?_
    · simp [reachDirs, reachDirsLoop, iterdir, childOf, isDirFS, lookupFS,
        fsB0]
    · rw [hr]; exact List.mem_singleton.mpr rfl
    · intro q hq
      rw [hr] at hq
      rw [List.mem_singleton.mp hq]
      exact fun _ => rfl

theorem c5_error_aborts_witness :
    (∃ e, flatten_dirE failA fsA ["s"] ["d"] 1 false true =
      Except.error e) ∧
    (flatten_dirE (fun _ => false) fsA ["s"] ["d"] 1 false false =
      Except.ok (flatten_dir fsA ["s"] ["d"] 1 false false)) := by
  have h := c5_error_aborts failA fsA ["s"] ["d"] 1 false
    (by simp [reachDirs, reachDirsLoop, iterdir, childOf, isDirFS, lookupFS,
      fsA])
    ⟨["s", "a"],
      by simp [reachFiles, reachFilesLoop, iterdir, childOf, isDirFS,
        isFileFS, lookupFS, fsA],
      by decide⟩
  exact ⟨h.1, h.2 fsA ["s"] ["d"] 1 false false⟩

theorem c7_monotone_counts_witness :
    (flatten_dir fsA ["s"] ["d"] 1 false true).nFiles ≤
      (reachFiles fsA ["s"] 1).length ∧
    (flatten_dir fsA ["s"] ["d"] 1 false true).nBytes ≤
      ((reachFiles fsA ["s"] 1).map (statSize fsA)).sum ∧
    (flatten_dir fsA ["s"] ["d"] 1 false true).nFiles =
      (reachFiles fsA ["s"] 1).length ∧
    (flatten_dir fsA ["s"] ["d"] 1 false true).nBytes =
      ((reachFiles fsA ["s"] 1).map (statSize fsA)).sum := by
  have h := c7_monotone_counts fsA ["s"] ["d"] 1 false true
  have h3 := h.2.2
    (by simp [reachDirs, reachDirsLoop, iterdir, childOf, isDirFS, lookupFS,
      fsA])
    (Or.inl rfl)
  exact ⟨h.1, h.2.1, h3.1, h3.2⟩

theorem c9_frame_condition_witness :
    (lookupFS (flatten_dir fsB0 ["s"] ["d"] 0 false false).fs ["s", "a"] =
      lookupFS fsB0 ["s", "a"]) ∧
    (∀ x ∈ copiedOf (flatten_dir fsB0 ["s"] ["d"] 0 false false).trace,
      (x.2.1).dropLast = ["d"]) ∧
    ((lookupFS (flatten_dir fsB0 ["s"] ["d"] 0 false false).fs
      ["d", "a"]).isSome = true) ∧
    (lookupFS (flatten_dir fsB0 ["s"] ["d"] 0 false false).fs ["s"] =
      lookupFS fsB0 ["s"]) := by
  have h := c9_frame_condition fsB0 ["s"] ["d"] 0 false false
  exact ⟨h.1 ["s", "a"] (by decide), h.2.1,
    h.2.2.1 ["d", "a"] (by decide), h.1 ["s"] (by decide)⟩

theorem c10_guard_every_level_witness :
    (List.dropLast ["s", "a"] ≠ ["d"]) ∧
    flatten_dir fsA ["d"] ["d"] 1 false false = ⟨fsA, 0, 0, []⟩ := by
  have h := c10_guard_every_level fsA ["s"] ["d"] 1 false false
  refine ⟨h.1 ["s", "a"] ?_, h.2.2⟩
  simp [flatten_dir, flattenLoop, iterdir, childOf, isDirFS, isFileFS,
    lookupFS, existsFS, contentOf, statSize, setFile, lastName, fsA,
    visitedOf]

end Flatdir
